import Mathlib

/-!
Shallow embedding of the DIGITAL-TWIN-CITY traffic simulation
(`src/step9c_congestion_simulation.py`, with the `step6` random-walk and
`step8` scenario variants where a claim refers to them).

Conventions of the embedding:
* Node identifiers and agent identifiers are natural numbers; an agent's
  identifier is its index in the model's agent list (creation order, as in
  `ap.AgentList`).
* Python floats are modelled as exact rationals (`ℚ`).
* Python `set` values (the per-node occupancy sets of `self.grid`) are
  modelled as duplicate-free lists; `set.add` appends when absent,
  `set.remove` is a filter guarded by a membership check (a failed check is
  Python's `KeyError`, surfaced as `none`).
* The shared pseudo-random source (`self.model.random`) is modelled as a
  stream `r : ℕ → ℕ` together with a draw counter in the state; each call
  to `random.choice(lst)` / one element of `random.choices` consumes one
  stream value and picks `lst[r k % lst.length]`.
* Fallible Python code (`KeyError`, `ZeroDivisionError`, `IndexError`)
  returns `Option`, with `none` for a raised exception.
-/

namespace DTC

/-- Congestion model constant from `step9c_congestion_simulation.py`. -/
def CAPACITY_PER_LANE : ℤ := 10

/-- Route recomputation interval from `step9c_congestion_simulation.py`. -/
def RECALCULATE_PATH_STEPS : ℕ := 5

/-! ## Attribute parsing (`CityModel.setup` cast loop, step9c lines 83-99) -/

/-- A raw GraphML attribute value as seen after `ox.load_graphml`: either a
plain string or a list of strings. -/
inductive Attr where
  | str (s : String) : Attr
  | strs (l : List String) : Attr
deriving DecidableEq, Repr

/-- Numeric value of a list of decimal digit characters. -/
def digitsVal (cs : List Char) : ℕ :=
  cs.foldl (fun n c => 10 * n + (c.toNat - 48)) 0

/-- Model of Python `float(s)` on plain decimal strings (optional sign,
digits, at most one decimal point); any other shape raises `ValueError`,
returned as `none`. -/
def pyFloat (s : String) : Option ℚ :=
  let withSign : List Char → Option ℚ := fun cs =>
    match cs.splitOn '.' with
    | [ip] =>
        if ip ≠ [] ∧ ip.all Char.isDigit then some (digitsVal ip) else none
    | [ip, fp] =>
        if (ip ++ fp) ≠ [] ∧ (ip ++ fp).all Char.isDigit then
          some ((digitsVal ip : ℚ) + (digitsVal fp : ℚ) / ((10 : ℚ) ^ fp.length))
        else none
    | _ => none
  match s.data with
  | '-' :: rest => (withSign rest).map (fun q => -q)
  | '+' :: rest => withSign rest
  | cs => withSign cs

/-- Model of Python `int(x)` on a float: truncation toward zero. -/
def pyTrunc (q : ℚ) : ℤ :=
  Int.tdiv q.num (q.den : ℤ)

/-- Embedding of the `lanes` cast in `CityModel.setup` (step9c lines 85-88):
`lanes_str = data.get('lanes', '1')`, a list value takes its first element
(`IndexError`, hence `none`, on an empty list), then `int(float(lanes_str))`
(`ValueError`, hence `none`, on a non-numeric string). -/
def parseLanes (a : Option Attr) : Option ℤ :=
  match a with
  | none => (pyFloat "1").map pyTrunc
  | some (.str s) => (pyFloat s).map pyTrunc
  | some (.strs []) => none
  | some (.strs (s :: _)) => (pyFloat s).map pyTrunc

/-! ## Graph and router -/

/-- One directed edge of the multigraph, with the attributes the simulation
reads: `base` is `base_travel_time` (the free-flow time, never mutated) and
`tt` is the dynamic `travel_time`. -/
structure SimEdge where
  u : ℕ
  v : ℕ
  base : ℚ
  tt : ℚ
  lanes : ℤ
deriving DecidableEq, Repr

/-- Weight of the step `u → v` under the current `travel_time` snapshot:
the minimum over parallel edges (networkx Dijkstra semantics on a
multigraph), `none` when `u → v` is not an edge. -/
def edgeWeight (E : List SimEdge) (u v : ℕ) : Option ℚ :=
  match (E.filter (fun e => e.u = u ∧ e.v = v)).map SimEdge.tt with
  | [] => none
  | w :: ws => some (ws.foldl min w)

/-- Adjacency: `u → v` is an edge of the multigraph. -/
def adjacent (E : List SimEdge) (u v : ℕ) : Prop :=
  (edgeWeight E u v).isSome

instance (E : List SimEdge) (u v : ℕ) : Decidable (adjacent E u v) :=
  inferInstanceAs (Decidable ((edgeWeight E u v).isSome = true))

/-- Successor list of `u` (the heads of out-edges, without duplicates);
model of `G.neighbors(u)` for a directed graph. -/
def adjList (E : List SimEdge) (u : ℕ) : List ℕ :=
  ((E.filter (fun e => e.u = u)).map SimEdge.v).dedup

/-- Total weight of a node sequence under the current snapshot (weight of a
missing edge defaults to 0; on sequences whose consecutive nodes are
adjacent this never triggers). -/
def pathWeight (E : List SimEdge) : List ℕ → ℚ
  | [] => 0
  | [_] => 0
  | a :: b :: rest => (edgeWeight E a b).getD 0 + pathWeight E (b :: rest)

/-- Enumeration of all duplicate-free node sequences that start at `cur`,
end at `t`, follow edges, avoid `visited`, and have length at most `fuel`. -/
def simplePaths (E : List SimEdge) (t : ℕ) : ℕ → List ℕ → ℕ → List (List ℕ)
  | 0, _, _ => []
  | fuel + 1, visited, cur =>
    if cur = t then [[cur]]
    else
      ((adjList E cur).filter (fun v => decide (v ∉ cur :: visited))).flatMap
        (fun v => (simplePaths E t fuel (cur :: visited) v).map (fun p => cur :: p))

/-- First minimum-weight element of a list of candidate paths. -/
def pickMin (w : List ℕ → ℚ) : List (List ℕ) → Option (List ℕ)
  | [] => none
  | p :: ps =>
    match pickMin w ps with
    | none => some p
    | some q => if w p ≤ w q then some p else some q

/-- Model of `nx.shortest_path(G, source, target, weight='travel_time')`.
Modelled from the spec: the networkx library routine is external to the
repository; per spec section 4.2 it is a Dijkstra shortest path over the
current `edge_weight` snapshot, returning the full source-to-target node
sequence (source included), raising `NodeNotFound` (here `none`) for a
missing endpoint and `NetworkXNoPath` (here `none`) when unreachable. The
embedding returns a minimum-weight simple path, deterministically. -/
def shortest_path (E : List SimEdge) (nodes : List ℕ) (s t : ℕ) : Option (List ℕ) :=
  if s ∈ nodes ∧ t ∈ nodes then
    pickMin (pathWeight E) (simplePaths E t nodes.length [] s)
  else none

/-- A walk from `s` to `t`: starts at `s`, ends at `t`, and every
consecutive pair of nodes is joined by an edge. -/
def IsPathFT (E : List SimEdge) (s t : ℕ) (p : List ℕ) : Prop :=
  p.head? = some s ∧ p.getLast? = some t ∧ p.Chain' (adjacent E)

instance (E : List SimEdge) (s t : ℕ) (p : List ℕ) :
    Decidable (IsPathFT E s t p) :=
  inferInstanceAs (Decidable (_ ∧ _ ∧ _))

/-! ## Simulation state -/

/-- Per-agent fields of `VehicleAgent`: current node, destination, pending
route. (`self.pos` is `None` only between agent creation and placement,
before any path computation reads it; placement always assigns it first, so
the embedding keeps a plain node value.) -/
structure AgentSt where
  pos : ℕ
  dest : ℕ
  path : List ℕ
deriving DecidableEq, Repr

/-- The mutable model state of `CityModel`: edge list, node list, the manual
grid (per-node occupancy sets), the `agent_positions` tracker (indexed by
agent identifier), the agent list, the number of random draws consumed so
far, and the tick counter `t`. -/
structure SimState where
  edges : List SimEdge
  nodes : List ℕ
  grid : List (ℕ × List ℕ)
  tracker : List ℕ
  agents : List AgentSt
  rcount : ℕ
  t : ℕ
deriving DecidableEq, Repr

/-- One call to `self.random.choice(self.graph_nodes)`: consumes one stream
value and picks a node. -/
def draw (r : ℕ → ℕ) (st : SimState) : ℕ × SimState :=
  (st.nodes.getD (r st.rcount % st.nodes.length) 0, { st with rcount := st.rcount + 1 })

/-- Sequence of `k` draws (model of `random.choices(self.graph_nodes, k=k)`). -/
def drawN (r : ℕ → ℕ) : SimState → ℕ → List ℕ × SimState
  | st, 0 => ([], st)
  | st, k + 1 =>
    let (x, st') := draw r st
    let (xs, st'') := drawN r st' k
    (x :: xs, st'')

/-- Replace the record of agent `aid`. -/
def setAgent (st : SimState) (aid : ℕ) (a : AgentSt) : SimState :=
  { st with agents := st.agents.set aid a }

/-- Remove an agent identifier from a node's occupancy set (`set.remove` on
`self.grid[cur]`; the key/membership checks live in `move_agent`). -/
def gridRemove (g : List (ℕ × List ℕ)) (cur : ℕ) (aid : ℕ) : List (ℕ × List ℕ) :=
  g.map (fun p => if p.1 = cur then (p.1, p.2.filter (fun a => a ≠ aid)) else p)

/-- Insert an agent identifier into a node's occupancy set (`set.add` on
`self.grid[pos]`). -/
def gridAdd (g : List (ℕ × List ℕ)) (pos : ℕ) (aid : ℕ) : List (ℕ × List ℕ) :=
  g.map (fun p =>
    if p.1 = pos then (p.1, if aid ∈ p.2 then p.2 else p.2 ++ [aid]) else p)

/-- Occupancy of node `n`: size of its set, 0 for an absent key (model of
`node_congestion.get(n, 0)` built from `self.grid`). -/
def occOf (g : List (ℕ × List ℕ)) (n : ℕ) : ℕ :=
  ((g.lookup n).getD []).length

namespace CityModel

/-- Embedding of `CityModel.move_agent` (step9c lines 127-132, identical in
step6 lines 86-92 and step8 lines 120-125): remove the agent from its
current node's set, add it to `new_pos`'s set, update `agent.pos` and the
`agent_positions` tracker. `none` models the `KeyError` raised when the
current position or `new_pos` is not a grid key, or when the agent is not
in its current node's set. No adjacency check is performed. -/
def move_agent (st : SimState) (aid : ℕ) (newPos : ℕ) : Option SimState :=
  match st.agents[aid]? with
  | none => none
  | some a =>
    match st.grid.lookup a.pos with
    | none => none
    | some l =>
      if aid ∈ l then
        match st.grid.lookup newPos with
        | none => none
        | some _ =>
          some { st with
            grid := gridAdd (gridRemove st.grid a.pos aid) newPos aid,
            agents := st.agents.set aid { a with pos := newPos },
            tracker := st.tracker.set aid newPos }
      else none

end CityModel

namespace VehicleAgent

/-- Embedding of `VehicleAgent.calculate_new_path` (step9c lines 35-48):
compute a shortest path from the agent's position to its destination under
the `travel_time` weights and store it with the source popped off; on
`NetworkXNoPath` / `NodeNotFound`, draw a new destination and leave the
route empty. -/
def calculate_new_path (r : ℕ → ℕ) (st : SimState) (aid : ℕ) : SimState :=
  match st.agents[aid]? with
  | none => st
  | some a =>
    match shortest_path st.edges st.nodes a.pos a.dest with
    | some p => setAgent st aid { a with path := p.tail }
    | none =>
      let (d, st') := draw r st
      setAgent st' aid { a with dest := d, path := [] }

/-- Pop the first route node and request a move (step9c lines 61-62). -/
def popAndMove (st : SimState) (aid : ℕ) : Option SimState :=
  match st.agents[aid]? with
  | none => none
  | some a =>
    match a.path with
    | [] => none
    | p :: rest => CityModel.move_agent (setAgent st aid { a with path := rest }) aid p

/-- Embedding of `VehicleAgent.step` (step9c lines 50-62): recompute on
recalculation ticks; if the route is empty, redraw the destination and
recompute once more; if still empty, do nothing; otherwise pop the first
route node and move there. -/
def step (r : ℕ → ℕ) (st : SimState) (aid : ℕ) : Option SimState :=
  let st1 := if st.t % RECALCULATE_PATH_STEPS = 0 then calculate_new_path r st aid else st
  match st1.agents[aid]? with
  | none => none
  | some a1 =>
    if a1.path.isEmpty then
      let (d, st2) := draw r st1
      let st3 := calculate_new_path r (setAgent st2 aid { a1 with dest := d }) aid
      match st3.agents[aid]? with
      | none => none
      | some a3 => if a3.path.isEmpty then some st3 else popAndMove st3 aid
    else popAndMove st1 aid

/-- The part of `step` after the recalculation-tick recompute (`step` is
this core applied to the state produced by the first phase). -/
def stepCore (r : ℕ → ℕ) (st1 : SimState) (aid : ℕ) : Option SimState :=
  match st1.agents[aid]? with
  | none => none
  | some a1 =>
    if a1.path.isEmpty then
      let (d, st2) := draw r st1
      let st3 := calculate_new_path r (setAgent st2 aid { a1 with dest := d }) aid
      match st3.agents[aid]? with
      | none => none
      | some a3 => if a3.path.isEmpty then some st3 else popAndMove st3 aid
    else popAndMove st1 aid

end VehicleAgent

/-! ## Congestion recompute (`CityModel.update`, step9c lines 138-159) -/

/-- Reset pass: `data['travel_time'] = data['base_travel_time']`. -/
def resetE (e : SimEdge) : SimEdge := { e with tt := e.base }

/-- Congestion pass for one edge: `load = occ(u) + occ(v)`,
`capacity = lanes * CAPACITY_PER_LANE`; when `load > capacity` set
`travel_time = base_travel_time * (load / capacity)` (a `capacity` of zero
is Python's `ZeroDivisionError`, hence `none`). -/
def congEdge (g : List (ℕ × List ℕ)) (e : SimEdge) : Option SimEdge :=
  let load : ℤ := (occOf g e.u : ℤ) + (occOf g e.v : ℤ)
  let cap : ℤ := e.lanes * CAPACITY_PER_LANE
  if cap < load then
    if cap = 0 then none
    else some { e with tt := e.base * ((load : ℚ) / (cap : ℚ)) }
  else some e

/-- Option-valued map over a list, `none` as soon as one element fails. -/
def mapO {α β : Type} (f : α → Option β) : List α → Option (List β)
  | [] => some []
  | x :: xs =>
    match f x with
    | none => none
    | some y => (mapO f xs).map (fun ys => y :: ys)

namespace CityModel

/-- Embedding of `CityModel.update` (step9c lines 138-159): reset every
edge's `travel_time` to its base, then apply the congestion formula to
every edge from the instantaneous occupancy; finally the tracking print
reads `self.agents[0]`, an `IndexError` (`none`) when there are no agents. -/
def update (st : SimState) : Option SimState :=
  match mapO (congEdge st.grid) (st.edges.map resetE) with
  | none => none
  | some es => if st.agents.isEmpty then none else some { st with edges := es }

end CityModel

/-- Spec-side congestion formula, written from the words of claim C1 /
spec section 4.5: `load = occupancy(u) + occupancy(v)`,
`capacity = lanes * CAPACITY_PER_LANE`; when `load > capacity` the edge's
current travel time is `free_flow_time * (load / capacity)`, otherwise
exactly `free_flow_time` — a pure function of the free-flow time and the
instantaneous occupancy, ignoring the previous travel time. -/
def congSpecEdge (g : List (ℕ × List ℕ)) (e : SimEdge) : SimEdge :=
  let load : ℤ := (occOf g e.u : ℤ) + (occOf g e.v : ℤ)
  let cap : ℤ := e.lanes * CAPACITY_PER_LANE
  { e with tt := if cap < load then e.base * ((load : ℚ) / (cap : ℚ)) else e.base }

/-- Overwrite the dynamic travel times of a list of edges with arbitrary
values (position-dependent); used to state that the congestion recompute
does not read the previous tick's travel times. -/
def setTTlist (f : ℕ → ℚ) : List SimEdge → List SimEdge
  | [] => []
  | e :: es => { e with tt := f 0 } :: setTTlist (fun i => f (i + 1)) es

/-- State with all dynamic travel times overwritten. -/
def setTTs (st : SimState) (f : ℕ → ℚ) : SimState :=
  { st with edges := setTTlist f st.edges }

/-! ## Scheduler (agentpy `Model.run`: setup, then per tick `t += 1`,
`step`, `update`) -/

/-- Run `VehicleAgent.step` for the given agent identifiers in order
(`self.agents.step()` iterates the agent list in creation order). -/
def stepAgents (r : ℕ → ℕ) : List ℕ → SimState → Option SimState
  | [], st => some st
  | i :: is, st =>
    match VehicleAgent.step r st i with
    | none => none
    | some st' => stepAgents r is st'

/-- One full tick: increment `t`, run every agent's step phase, then the
congestion recompute. -/
def tick (r : ℕ → ℕ) (st : SimState) : Option SimState :=
  match stepAgents r (List.range st.agents.length) { st with t := st.t + 1 } with
  | none => none
  | some st' => CityModel.update st'

/-- Iterate `tick` for a given number of ticks. -/
def runTicks (r : ℕ → ℕ) : SimState → ℕ → Option SimState
  | st, 0 => some st
  | st, n + 1 =>
    match tick r st with
    | none => none
    | some st' => runTicks r st' n

/-- Initial `travel_time` assignment of the setup cast loop (step9c line
99): `data['travel_time'] = data['base_travel_time']`. -/
def initEdges (E : List SimEdge) : List SimEdge := E.map resetE

/-- Empty occupancy grid: `{node_id: set() for node_id in self.G.nodes()}`. -/
def mkGrid (nodes : List ℕ) : List (ℕ × List ℕ) := nodes.map (fun n => (n, []))

/-- Place one agent: assign its drawn position, add it to the grid, record
it in the tracker, then compute its first path (step9c lines 118-123). -/
def placeOne (r : ℕ → ℕ) (st : SimState) (aid : ℕ) (pos : ℕ) : SimState :=
  match st.agents[aid]? with
  | none => st
  | some a =>
    VehicleAgent.calculate_new_path r
      { st with
        agents := st.agents.set aid { a with pos := pos },
        grid := gridAdd st.grid pos aid,
        tracker := st.tracker ++ [pos] } aid

/-- Placement loop over the drawn initial positions. -/
def placeAll (r : ℕ → ℕ) : SimState → List ℕ → ℕ → SimState
  | st, [], _ => st
  | st, p :: ps, i => placeAll r (placeOne r st i p) ps (i + 1)

namespace CityModel

/-- Embedding of `CityModel.setup` (step9c lines 68-125), after the
attribute cast: initialize `travel_time` to base, build the empty grid,
create `numAgents` agents (each drawing its destination in creation order),
draw the initial positions with replacement, then place each agent and
compute its first path. `none` models the `IndexError` of drawing from an
empty node list. No isolation check is performed on drawn positions. -/
def setup (r : ℕ → ℕ) (E : List SimEdge) (nodes : List ℕ) (numAgents : ℕ) :
    Option SimState :=
  if nodes.isEmpty then none
  else
    let st0 : SimState :=
      ⟨initEdges E, nodes, mkGrid nodes, [], [], 0, 0⟩
    let (dests, st1) := drawN r st0 numAgents
    let st2 := { st1 with agents := dests.map (fun d => ⟨0, d, []⟩) }
    let (poss, st3) := drawN r st2 numAgents
    some (placeAll r st3 poss 0)

end CityModel

/-- State after setup and the initial `update` call (agentpy runs `update`
once at `t = 0`, right after `setup`). -/
def mkInit (r : ℕ → ℕ) (E : List SimEdge) (nodes : List ℕ) (numAgents : ℕ) :
    Option SimState :=
  match CityModel.setup r E nodes numAgents with
  | none => none
  | some st => CityModel.update st

/-- Full simulation run: setup, initial update, then `numTicks` ticks. -/
def runSim (r : ℕ → ℕ) (E : List SimEdge) (nodes : List ℕ)
    (numAgents numTicks : ℕ) : Option SimState :=
  match mkInit r E nodes numAgents with
  | none => none
  | some st => runTicks r st numTicks

/-! ## Random-walk variant (`step6_run_calibrated_simulation.py`) -/

namespace RandomWalk

/-- Embedding of the step6 `VehicleAgent.step` (lines 30-42): list the
current node's neighbors (`G.neighbors` raises, hence `none`, on an unknown
node); when there are neighbors, move to one drawn from the shared random
source; otherwise do nothing. -/
def step (r : ℕ → ℕ) (st : SimState) (aid : ℕ) : Option SimState :=
  match st.agents[aid]? with
  | none => none
  | some a =>
    if a.pos ∈ st.nodes then
      let nbrs := adjList st.edges a.pos
      if nbrs.isEmpty then some st
      else
        let newPos := nbrs.getD (r st.rcount % nbrs.length) 0
        CityModel.move_agent { st with rcount := st.rcount + 1 } aid newPos
    else none

end RandomWalk

/-! ## Step8 spawn check (`step8_what_if_highway_closure.py` lines 109-111) -/

/-- Embedding of the step8 placement guard: `if pos not in self.G: pos =
random.choice(self.graph_nodes)` — the drawn position is replaced only when
it is not a graph node; no isolation test is made. -/
def spawnPos8 (nodes : List ℕ) (pos fallback : ℕ) : ℕ :=
  if pos ∈ nodes then pos else fallback

/-! ## Invariants and observables used by the run-level claims -/

/-- The occupancy grid is canonical: its keys are exactly the node list,
each node's set is duplicate-free, and an agent identifier lies in a
node's set exactly when that agent's recorded position is that node. -/
def GridCanon (st : SimState) : Prop :=
  st.grid.map Prod.fst = st.nodes ∧
  ∀ pr ∈ st.grid, pr.2.Nodup ∧
    ∀ i : ℕ, i ∈ pr.2 ↔ (st.agents.map AgentSt.pos)[i]? = some pr.1

/-- Well-formedness carried through the run for the occupancy claims:
unique nodes, canonical grid, and every agent located on a graph node. -/
def OccInv (st : SimState) : Prop :=
  st.nodes.Nodup ∧ GridCanon st ∧ ∀ a ∈ st.agents, a.pos ∈ st.nodes

/-- Each live agent identifier is in exactly one node's occupancy set. -/
def ExactlyOne (st : SimState) : Prop :=
  ∀ i, i < st.agents.length → ∃! n, i ∈ (st.grid.lookup n).getD []

/-- Total occupancy: the sum of the sizes of all nodes' sets. -/
def occSum (st : SimState) : ℕ :=
  (st.grid.map (fun pr => pr.2.length)).sum

/-- Static edge attributes assumed of a well-formed input network:
nonnegative free-flow time and at least one lane. -/
def EdgesStatic (st : SimState) : Prop :=
  ∀ e ∈ st.edges, 0 ≤ e.base ∧ 1 ≤ e.lanes

/-- The claimed travel-time lower bound. -/
def TTge (st : SimState) : Prop :=
  ∀ e ∈ st.edges, e.base ≤ e.tt

/-- Two random streams agree on the index window `[a, b)`. -/
def Agree (r1 r2 : ℕ → ℕ) (a b : ℕ) : Prop :=
  ∀ i, a ≤ i → i < b → r1 i = r2 i

/-- Partial canonicity during the setup placement loop: grid keys are the
node list, every occupancy set is duplicate-free, an identifier sits in a
node's set exactly when it indexes an already-placed agent (index below
`k`) located there, and every already-placed agent sits on a graph node. -/
def PartCanon (k : ℕ) (st : SimState) : Prop :=
  st.grid.map Prod.fst = st.nodes ∧
  (∀ pr ∈ st.grid, pr.2.Nodup ∧
    ∀ i : ℕ, i ∈ pr.2 ↔ i < k ∧ (st.agents.map AgentSt.pos)[i]? = some pr.1) ∧
  ∀ j q, j < k → (st.agents.map AgentSt.pos)[j]? = some q → q ∈ st.nodes

/-! ## Concrete example networks and states used by several theorems -/

/-- A single edge `0 → 1`; node `2` of `[0, 1, 2]` is isolated. -/
def exE : List SimEdge := [⟨0, 1, 1, 1, 1⟩]

/-- One agent, at node `0`, on the three-node network of `exE`. -/
def exMoveSt : SimState :=
  ⟨exE, [0, 1, 2], [(0, [0]), (1, []), (2, [])], [0], [⟨0, 0, []⟩], 0, 0⟩

/-- Random stream whose second value selects the isolated node `2`. -/
def rIso : ℕ → ℕ := fun i => if i = 1 then 2 else 0

/-- Random stream that always selects index 1. -/
def rOne : ℕ → ℕ := fun _ => 1

/-- Two disconnected nodes, one agent at node `0` with an unreachable
destination and an empty route, on a recalculation tick. -/
def noRouteSt : SimState :=
  ⟨[], [0, 1], [(0, [0]), (1, [])], [0], [⟨0, 1, []⟩], 0, 5⟩

/-- One agent sitting at the isolated node `2` of `exE`. -/
def deadEndSt : SimState :=
  ⟨exE, [0, 1, 2], [(0, []), (1, []), (2, [0])], [2], [⟨2, 0, []⟩], 0, 0⟩

/-- Eleven agents at node 0 of a two-node network whose single-lane edges
have capacity 10, so both edges are over capacity (load 11). -/
def congSt : SimState :=
  ⟨[⟨0, 1, 7, 7, 1⟩, ⟨1, 0, 5, 99, 1⟩], [0, 1],
   [(0, [0, 1, 2, 3, 4, 5, 6, 7, 8, 9, 10]), (1, [])],
   List.replicate 11 0, List.replicate 11 ⟨0, 1, []⟩, 0, 0⟩

/-- A single node, no edges, one agent whose destination equals its
position. -/
def rtSt : SimState := ⟨[], [0], [(0, [0])], [0], [⟨0, 0, []⟩], 0, 0⟩

/-- A three-node line `0 → 1 → 2` with one agent at node 0 headed for
node 2. -/
def lineSt : SimState :=
  ⟨[⟨0, 1, 1, 1, 1⟩, ⟨1, 2, 1, 1, 1⟩], [0, 1, 2],
   [(0, [0]), (1, []), (2, [])], [0], [⟨0, 2, []⟩], 0, 0⟩

/-! ## C5 — moves are not validated for adjacency -/

/-- C5 (counterexample): `move_agent` accepts a move to a node that is not
adjacent to the agent's current node — agent 0 sits at node 0, node 2 is
not a successor of node 0, yet the move succeeds instead of failing. -/
theorem claim5_counterexample :
    (CityModel.move_agent exMoveSt 0 2).isSome = true ∧
      ¬ adjacent exMoveSt.edges 0 2 := by
  decide

/-- C5 (amended): `move_agent` performs no adjacency check at all: whenever
the agent exists, its current position and `new_pos` are grid keys, and the
agent is in its current node's set, the move is applied — removing the
agent from its old node's set, adding it to `new_pos`'s set, and updating
the position and tracker — whether or not `new_pos` is adjacent. -/
theorem claim5_move_applies_without_adjacency (st : SimState) (aid newPos : ℕ)
    (a : AgentSt) (l l' : List ℕ)
    (ha : st.agents[aid]? = some a)
    (hcur : st.grid.lookup a.pos = some l)
    (hmem : aid ∈ l)
    (hnew : st.grid.lookup newPos = some l') :
    CityModel.move_agent st aid newPos =
      some { st with
        grid := gridAdd (gridRemove st.grid a.pos aid) newPos aid,
        agents := st.agents.set aid { a with pos := newPos },
        tracker := st.tracker.set aid newPos } := by
  simp only [CityModel.move_agent, ha, hcur, hnew, if_pos hmem]

/-- C5 witness: the amended theorem applied to the concrete non-adjacent
move of `claim5_counterexample`. -/
theorem claim5_witness :
    CityModel.move_agent exMoveSt 0 2 =
      some { exMoveSt with
        grid := gridAdd (gridRemove exMoveSt.grid 0 0) 2 0,
        agents := exMoveSt.agents.set 0 ⟨2, 0, []⟩,
        tracker := exMoveSt.tracker.set 0 2 } :=
  claim5_move_applies_without_adjacency exMoveSt 0 2 ⟨0, 0, []⟩ [0] []
    rfl rfl (by decide) rfl

/-! ## C6 — the redraw-and-retry fallback -/

/-- Setting an entry to a value with the same `f`-image leaves the mapped
list unchanged. -/
theorem map_set_same {α β : Type} (f : α → β) (l : List α) (i : ℕ) (a x : α)
    (ha : l[i]? = some a) (hf : f x = f a) :
    (l.set i x).map f = l.map f := by
  rw [List.map_set]
  apply List.ext_getElem?
  intro n
  rcases eq_or_ne i n with rfl | hne
  · rcases List.getElem?_eq_some_iff.mp ha with ⟨hlt, hget⟩
    rw [List.getElem?_set_self (by simpa using hlt), hf]
    simp [List.getElem?_eq_some_iff, hlt, hget]
  · rw [List.getElem?_set_ne hne]

/-- Fields of the state that `calculate_new_path` can never change, the
draw-count bounds, and the fact that a draw happens exactly when the
recompute failed — in which case the agent's route is left empty. -/
theorem calc_new_path_fields (r : ℕ → ℕ) (st : SimState) (aid : ℕ) :
    (VehicleAgent.calculate_new_path r st aid).edges = st.edges ∧
    (VehicleAgent.calculate_new_path r st aid).nodes = st.nodes ∧
    (VehicleAgent.calculate_new_path r st aid).grid = st.grid ∧
    (VehicleAgent.calculate_new_path r st aid).tracker = st.tracker ∧
    (VehicleAgent.calculate_new_path r st aid).t = st.t ∧
    (VehicleAgent.calculate_new_path r st aid).agents.map AgentSt.pos =
      st.agents.map AgentSt.pos ∧
    st.rcount ≤ (VehicleAgent.calculate_new_path r st aid).rcount ∧
    (VehicleAgent.calculate_new_path r st aid).rcount ≤ st.rcount + 1 ∧
    ((VehicleAgent.calculate_new_path r st aid).rcount = st.rcount + 1 →
      ((VehicleAgent.calculate_new_path r st aid).agents[aid]?).map
        AgentSt.path = some []) := by
  unfold VehicleAgent.calculate_new_path
  cases ha : st.agents[aid]? with
  | none =>
    simp only [ha]
    exact ⟨by trivial, by trivial, by trivial, by trivial, by trivial,
      by trivial, le_refl _, by omega, fun h' => absurd h' (by omega)⟩
  | some a =>
    have hlt : aid < st.agents.length :=
      (List.getElem?_eq_some_iff.mp ha).1
    simp only [ha]
    rcases hsp : shortest_path st.edges st.nodes a.pos a.dest with _ | p
    · simp only [hsp, draw, setAgent]
      refine ⟨by trivial, by trivial, by trivial, by trivial, by trivial,
        ?_, by omega, le_refl _, ?_⟩
      · exact map_set_same AgentSt.pos st.agents aid a _ ha rfl
      · intro _
        rw [List.getElem?_set_self (by simpa using hlt)]
        rfl
    · simp only [hsp, setAgent]
      refine ⟨by trivial, by trivial, by trivial, by trivial, by trivial,
        ?_, le_refl _, by omega, fun h' => absurd h' (by omega)⟩
      exact map_set_same AgentSt.pos st.agents aid a _ ha rfl

/-- Fields of the state that `move_agent` can never change. -/
theorem move_agent_fields (st st' : SimState) (aid p : ℕ)
    (h : CityModel.move_agent st aid p = some st') :
    st'.edges = st.edges ∧ st'.nodes = st.nodes ∧ st'.t = st.t ∧
      st'.rcount = st.rcount := by
  unfold CityModel.move_agent at h
  split at h
  · exact absurd h (by simp)
  · split at h
    · exact absurd h (by simp)
    · split at h
      · split at h
        · exact absurd h (by simp)
        · cases h
          exact ⟨rfl, rfl, rfl, rfl⟩
      · exact absurd h (by simp)

/-- Fields of the state that `popAndMove` can never change. -/
theorem popAndMove_fields (st st' : SimState) (aid : ℕ)
    (h : VehicleAgent.popAndMove st aid = some st') :
    st'.edges = st.edges ∧ st'.nodes = st.nodes ∧ st'.t = st.t ∧
      st'.rcount = st.rcount := by
  unfold VehicleAgent.popAndMove at h
  split at h
  · exact absurd h (by simp)
  · split at h
    · exact absurd h (by simp)
    · simpa [setAgent] using move_agent_fields _ _ _ _ h

/-- C6 (counterexample): on a recalculation tick with an unreachable
destination and empty route, the agent's step consumes three destination
draws from the shared random source (the failed first recompute redraws
inside its exception handler, the explicit fallback redraws, and the failed
retry redraws once more), not the single redraw the claim allows. -/
theorem claim6_counterexample :
    VehicleAgent.step rOne noRouteSt 0 =
      some { noRouteSt with agents := [⟨0, 1, []⟩], rcount := 3 } ∧
    noRouteSt.rcount = 0 ∧ ¬ (3 ≤ noRouteSt.rcount + 1) := by
  refine ⟨by decide, rfl, by decide⟩

/-- C6 (amended): the recompute retry is bounded — whatever happens inside
one agent's step, at most three destination draws are consumed from the
shared random source (initial failed recompute, explicit fallback redraw,
failed retry — each failed recompute also redraws inside its exception
handler), the network and clock are untouched, and when all three draws
were consumed (the retry also failed) the agent took no action: the grid,
the tracker and the agent's position are unchanged and its route is empty. -/
theorem claim6_reroute_bounded (r : ℕ → ℕ) (st st' : SimState) (aid : ℕ)
    (h : VehicleAgent.step r st aid = some st') :
    st'.rcount ≤ st.rcount + 3 ∧
    st'.edges = st.edges ∧ st'.nodes = st.nodes ∧ st'.t = st.t ∧
    (st'.rcount = st.rcount + 3 →
      st'.grid = st.grid ∧ st'.tracker = st.tracker ∧
      (st'.agents.map AgentSt.pos = st.agents.map AgentSt.pos) ∧
      (st'.agents[aid]?).map AgentSt.path = some []) := by
  unfold VehicleAgent.step at h
  set st1 := (if st.t % RECALCULATE_PATH_STEPS = 0 then
    VehicleAgent.calculate_new_path r st aid else st) with hst1
  have h1 : st1.edges = st.edges ∧ st1.nodes = st.nodes ∧
      st1.grid = st.grid ∧ st1.tracker = st.tracker ∧ st1.t = st.t ∧
      st1.agents.map AgentSt.pos = st.agents.map AgentSt.pos ∧
      st.rcount ≤ st1.rcount ∧ st1.rcount ≤ st.rcount + 1 := by
    rw [hst1]
    split
    · obtain ⟨e, n, g, tr, ht, mp, lo, hi, _⟩ := calc_new_path_fields r st aid
      exact ⟨e, n, g, tr, ht, mp, lo, hi⟩
    · exact ⟨rfl, rfl, rfl, rfl, rfl, rfl, le_refl _, by omega⟩
  obtain ⟨h1e, h1n, h1g, h1tr, h1t, h1mp, h1lo, h1hi⟩ := h1
  cases ha1 : st1.agents[aid]? with
  | none =>
    simp only [ha1] at h
    exact Option.noConfusion h
  | some a1 =>
    simp only [ha1, draw] at h
    by_cases hpe : a1.path.isEmpty = true
    · rw [if_pos hpe] at h
      set stmid := setAgent { st1 with rcount := st1.rcount + 1 } aid
        { a1 with dest := st1.nodes.getD (r st1.rcount % st1.nodes.length) 0 }
        with hmid
      have hmidg : stmid.grid = st1.grid := rfl
      have hmidtr : stmid.tracker = st1.tracker := rfl
      have hmide : stmid.edges = st1.edges := rfl
      have hmidn : stmid.nodes = st1.nodes := rfl
      have hmidt : stmid.t = st1.t := rfl
      have hmidr : stmid.rcount = st1.rcount + 1 := rfl
      have hmidmp : stmid.agents.map AgentSt.pos = st1.agents.map AgentSt.pos :=
        map_set_same AgentSt.pos st1.agents aid a1 _ ha1 rfl
      obtain ⟨c3e, c3n, c3g, c3tr, c3t, c3mp, c3lo, c3hi, c3fail⟩ :=
        calc_new_path_fields r stmid aid
      set st3 := VehicleAgent.calculate_new_path r stmid aid with h3st
      cases ha3 : st3.agents[aid]? with
      | none =>
        simp only [ha3] at h
        exact Option.noConfusion h
      | some a3 =>
        simp only [ha3] at h
        by_cases hpe3 : a3.path.isEmpty = true
        · rw [if_pos hpe3] at h
          obtain rfl : st3 = st' := Option.some.inj h
          refine ⟨by omega, by rw [c3e, hmide, h1e],
            by rw [c3n, hmidn, h1n], by rw [c3t, hmidt, h1t], ?_⟩
          intro _
          refine ⟨by rw [c3g, hmidg, h1g], by rw [c3tr, hmidtr, h1tr],
            by rw [c3mp, hmidmp, h1mp], ?_⟩
          simp [ha3, List.isEmpty_iff.mp hpe3]
        · rw [if_neg hpe3] at h
          obtain ⟨pe, pn, pt, pr⟩ := popAndMove_fields st3 st' aid h
          refine ⟨by omega, by rw [pe, c3e, hmide, h1e],
            by rw [pn, c3n, hmidn, h1n], by rw [pt, c3t, hmidt, h1t], ?_⟩
          intro hr3
          exfalso
          have h3r : st3.rcount = stmid.rcount + 1 := by omega
          have := c3fail h3r
          rw [ha3] at this
          apply hpe3
          rw [List.isEmpty_iff]
          simpa using this
    · rw [if_neg hpe] at h
      obtain ⟨pe, pn, pt, pr⟩ := popAndMove_fields st1 st' aid h
      refine ⟨by omega, by rw [pe, h1e], by rw [pn, h1n],
        by rw [pt, h1t], ?_⟩
      intro hr
      exfalso
      omega

/-- C6 witness: the amended theorem applied to the concrete state of
`claim6_counterexample`, where the retry fails and all three draws happen. -/
theorem claim6_witness :
    (3 : ℕ) ≤ noRouteSt.rcount + 3 ∧
    ([] : List SimEdge) = noRouteSt.edges ∧ [0, 1] = noRouteSt.nodes ∧
    (5 : ℕ) = noRouteSt.t ∧
    ((3 : ℕ) = noRouteSt.rcount + 3 →
      [(0, [0]), (1, [])] = noRouteSt.grid ∧ [0] = noRouteSt.tracker ∧
      ([(0 : ℕ)] = noRouteSt.agents.map AgentSt.pos) ∧
      (([⟨0, 1, ([] : List ℕ)⟩] : List AgentSt)[(0 : ℕ)]?).map AgentSt.path =
        some []) :=
  claim6_reroute_bounded rOne noRouteSt
    { noRouteSt with agents := [⟨0, 1, []⟩], rcount := 3 } 0 (by decide)

/-! ## C7 — initial placement does not redraw isolated positions -/

/-- C7 (code bug, evaluated): with the single-edge network `exE` and a
random stream whose position draw selects the isolated node `2`, setup
places the agent at node `2` (no redraw happens, `adjList exE 2 = []`), and
the step8 spawn guard `spawnPos8` keeps an isolated drawn position because
it only tests graph membership. -/
theorem claim7_isolated_spawn :
    CityModel.setup rIso exE [0, 1, 2] 1 =
      some ⟨exE, [0, 1, 2], [(0, []), (1, []), (2, [0])], [2],
        [⟨2, 0, []⟩], 3, 0⟩ ∧
    adjList exE 2 = [] ∧
    spawnPos8 [0, 1, 2] 2 0 = 2 := by
  refine ⟨by decide, by decide, by decide⟩

/-! ## C9 — lanes parsing -/

/-- C9 (counterexample): a malformed (non-numeric) `lanes` value does not
default to 1 — the cast raises, so loading fails (`none`); moreover a
stored value of `"0"` yields the non-positive lane count 0. -/
theorem claim9_counterexample :
    parseLanes (some (Attr.str "abc")) = none ∧
      parseLanes (some (Attr.str "0")) = some 0 := by
  refine ⟨by decide, by decide⟩

/-- C9 (amended): an absent `lanes` attribute defaults to 1; a list value
takes its first element (an empty list fails); a numeric string is parsed
and truncated toward zero (which may give a non-positive integer); a
non-numeric string makes the cast — and hence loading — fail. -/
theorem claim9_lanes_parse :
    parseLanes none = some 1 ∧
    (∀ s q, pyFloat s = some q →
      parseLanes (some (Attr.str s)) = some (pyTrunc q)) ∧
    (∀ s, pyFloat s = none → parseLanes (some (Attr.str s)) = none) ∧
    (∀ s l, parseLanes (some (Attr.strs (s :: l))) =
      parseLanes (some (Attr.str s))) ∧
    parseLanes (some (Attr.strs [])) = none := by
  refine ⟨by decide, ?_, ?_, ?_, rfl⟩
  · intro s q h; simp [parseLanes, h]
  · intro s h; simp [parseLanes, h]
  · intro s l; rfl

/-- C9 witness: the amended theorem applied to the numeric string `"2.7"`,
whose parse truncates to 2. -/
theorem claim9_witness :
    parseLanes (some (Attr.str "2.7")) = some (pyTrunc (27 / 10 : ℚ)) :=
  claim9_lanes_parse.2.1 "2.7" (27 / 10 : ℚ) (by with_unfolding_all rfl)

/-! ## C10 — random-walk step at a dead-end node -/

/-- C10: in the step6 random-walk simulation, an agent whose current node
has no out-neighbors does nothing: the step returns the state unchanged
(position, every occupancy set, and the tracker untouched) and raises no
error. -/
theorem claim10_dead_end_noop (r : ℕ → ℕ) (st : SimState) (aid : ℕ)
    (a : AgentSt)
    (ha : st.agents[aid]? = some a)
    (hpos : a.pos ∈ st.nodes)
    (hdead : adjList st.edges a.pos = []) :
    RandomWalk.step r st aid = some st := by
  unfold RandomWalk.step
  rw [ha]
  simp [hpos, hdead]

/-- C10 witness: the dead-end no-op at the concrete state `deadEndSt`. -/
theorem claim10_witness :
    RandomWalk.step rOne deadEndSt 0 = some deadEndSt :=
  claim10_dead_end_noop rOne deadEndSt 0 ⟨2, 0, []⟩ rfl (by decide) (by decide)

/-! ## C1 — the congestion recompute formula -/

/-- The congestion pass on a reset edge agrees with the spec formula when
the edge has at least one lane. -/
theorem congEdge_resetE (g : List (ℕ × List ℕ)) (e : SimEdge)
    (hl : 1 ≤ e.lanes) :
    congEdge g (resetE e) = some (congSpecEdge g e) := by
  have hcap : e.lanes * CAPACITY_PER_LANE ≠ 0 := by
    unfold CAPACITY_PER_LANE
    nlinarith
  unfold congEdge congSpecEdge resetE
  by_cases hlt : e.lanes * CAPACITY_PER_LANE < (occOf g e.u : ℤ) + (occOf g e.v : ℤ)
  · simp only [hlt, if_true, hcap, if_false]
  · simp only [hlt, if_false]

/-- Mapping then running an option-valued pass succeeds pointwise. -/
theorem mapO_map {α β γ : Type} (f : β → Option γ) (m : α → β) (g : α → γ)
    (l : List α) (h : ∀ x ∈ l, f (m x) = some (g x)) :
    mapO f (l.map m) = some (l.map g) := by
  induction l with
  | nil => rfl
  | cons x xs ih =>
    simp only [List.map_cons, mapO, h x (List.mem_cons_self x xs),
      ih (fun y hy => h y (List.mem_cons_of_mem x hy))]
    rfl

/-- Resetting wipes out any overwritten travel times. -/
theorem setTTlist_map_resetE (f : ℕ → ℚ) (l : List SimEdge) :
    (setTTlist f l).map resetE = l.map resetE := by
  induction l generalizing f with
  | nil => rfl
  | cons e es ih => simp only [setTTlist, List.map_cons, ih]; rfl

/-- C1: when all agent moves of the tick have been applied, the congestion
recompute sets every edge's current travel time to
`free_flow_time * (load / capacity)` when `load > capacity` and to exactly
`free_flow_time` otherwise, with `load` the summed occupancy of the edge's
endpoints and `capacity = lanes * CAPACITY_PER_LANE`; and the result is
computed wholly from the free-flow times and the instantaneous occupancy —
overwriting every edge's previous travel time with arbitrary values does
not change the recompute's outcome. -/
theorem claim1_congestion_formula (st : SimState)
    (hag : st.agents ≠ [])
    (hlanes : ∀ e ∈ st.edges, 1 ≤ e.lanes) :
    CityModel.update st =
      some { st with edges := st.edges.map (congSpecEdge st.grid) } ∧
    ∀ f, CityModel.update (setTTs st f) = CityModel.update st := by
  have hmap : mapO (congEdge st.grid) (st.edges.map resetE) =
      some (st.edges.map (congSpecEdge st.grid)) :=
    mapO_map _ _ _ _ (fun e he => congEdge_resetE st.grid e (hlanes e he))
  constructor
  · unfold CityModel.update
    rw [hmap]
    simp [List.isEmpty_iff, hag]
  · intro f
    unfold CityModel.update setTTs
    rw [setTTlist_map_resetE]

/-- C1 witness: the congestion formula theorem applied to the concrete
over-capacity state `congSt`. -/
theorem claim1_witness :
    CityModel.update congSt =
      some { congSt with edges := congSt.edges.map (congSpecEdge congSt.grid) } ∧
    ∀ f, CityModel.update (setTTs congSt f) = CityModel.update congSt :=
  claim1_congestion_formula congSt (by decide) (by decide)

/-! ## Router correctness infrastructure (C4) -/

/-- Adjacency unfolded to edge membership. -/
theorem adjacent_iff_mem (E : List SimEdge) (u v : ℕ) :
    adjacent E u v ↔ ∃ e ∈ E, e.u = u ∧ e.v = v := by
  unfold adjacent edgeWeight
  rcases hf : (E.filter (fun e => e.u = u ∧ e.v = v)).map SimEdge.tt with _ | ⟨w, ws⟩
  · simp only [hf, Option.isSome_none, Bool.false_eq_true, false_iff]
    rintro ⟨e, he, hu, hv⟩
    have : e.tt ∈ (E.filter (fun e => e.u = u ∧ e.v = v)).map SimEdge.tt :=
      List.mem_map_of_mem _ (List.mem_filter.mpr ⟨he, by simp [hu, hv]⟩)
    rw [hf] at this
    exact absurd this (List.not_mem_nil _)
  · simp only [hf, Option.isSome_some, true_iff]
    have : w ∈ (E.filter (fun e => e.u = u ∧ e.v = v)).map SimEdge.tt := by
      rw [hf]; exact List.mem_cons_self _ _
    rcases List.mem_map.mp this with ⟨e, he, _⟩
    have hmem := List.mem_filter.mp he
    refine ⟨e, hmem.1, ?_⟩
    have := hmem.2
    simpa using this

/-- Membership in the successor list is adjacency. -/
theorem mem_adjList (E : List SimEdge) (u v : ℕ) :
    v ∈ adjList E u ↔ adjacent E u v := by
  rw [adjacent_iff_mem]
  unfold adjList
  rw [List.mem_dedup, List.mem_map]
  constructor
  · rintro ⟨e, he, rfl⟩
    have hmem := List.mem_filter.mp he
    exact ⟨e, hmem.1, by simpa using hmem.2, rfl⟩
  · rintro ⟨e, he, hu, hv⟩
    exact ⟨e, List.mem_filter.mpr ⟨he, by simp [hu]⟩, hv⟩

/-- Soundness of the enumeration: every listed sequence is a duplicate-free
walk from `cur` to `t` avoiding `visited`. -/
theorem simplePaths_sound (E : List SimEdge) (t : ℕ) :
    ∀ fuel visited cur p, cur ∉ visited →
      p ∈ simplePaths E t fuel visited cur →
      p.head? = some cur ∧ p.getLast? = some t ∧ p.Chain' (adjacent E) ∧
        p.Nodup ∧ ∀ x ∈ p, x ∉ visited := by
  intro fuel
  induction fuel with
  | zero => intro visited cur p _ hp; simp [simplePaths] at hp
  | succ fuel ih =>
    intro visited cur p hcv hp
    unfold simplePaths at hp
    by_cases hct : cur = t
    · subst hct
      rw [if_pos rfl] at hp
      have hp' : p = [cur] := by simpa using hp
      subst hp'
      exact ⟨rfl, rfl, List.chain'_singleton _, List.nodup_singleton _,
        by simpa using hcv⟩
    · rw [if_neg hct] at hp
      rcases List.mem_flatMap.mp hp with ⟨v, hv, hpv⟩
      rcases List.mem_map.mp hpv with ⟨q, hq, rfl⟩
      have hvf := List.mem_filter.mp hv
      have hvn : v ∉ cur :: visited := by simpa using hvf.2
      obtain ⟨qh, ql, qc, qn, qa⟩ := ih (cur :: visited) v q hvn hq
      have hqne : q ≠ [] := by
        intro hq0; rw [hq0] at qh; exact Option.noConfusion qh
      refine ⟨rfl, ?_, ?_, ?_, ?_⟩
      · rcases q with _ | ⟨b, q'⟩
        · exact absurd rfl hqne
        · simpa using ql
      · rw [List.chain'_cons']
        refine ⟨?_, qc⟩
        intro y hy
        rw [qh] at hy
        obtain rfl : v = y := by simpa using hy
        exact (mem_adjList E cur _).mp hvf.1
      · refine List.nodup_cons.mpr ⟨?_, qn⟩
        intro hcur
        exact (qa cur hcur) (List.mem_cons_self _ _)
      · intro x hx
        rcases List.mem_cons.mp hx with rfl | hx'
        · exact hcv
        · intro hxv
          exact (qa x hx') (List.mem_cons_of_mem _ hxv)

/-- Completeness of the enumeration: every duplicate-free walk from `cur`
to `t` avoiding `visited` of bounded length is listed. -/
theorem simplePaths_complete (E : List SimEdge) (t : ℕ) :
    ∀ fuel visited cur p,
      p.head? = some cur → p.getLast? = some t → p.Chain' (adjacent E) →
      p.Nodup → (∀ x ∈ p, x ∉ visited) → p.length ≤ fuel →
      p ∈ simplePaths E t fuel visited cur := by
  intro fuel
  induction fuel with
  | zero =>
    intro visited cur p hh _ _ _ _ hlen
    rcases p with _ | ⟨a, p'⟩
    · exact Option.noConfusion hh
    · simp at hlen
  | succ fuel ih =>
    intro visited cur p hh hl hc hn ha hlen
    rcases p with _ | ⟨a, q⟩
    · exact Option.noConfusion hh
    have hac : a = cur := by simpa using hh
    subst hac
    unfold simplePaths
    by_cases hct : a = t
    · subst hct
      rw [if_pos rfl]
      have hq0 : q = [] := by
        rcases hq : q with _ | ⟨b, q'⟩
        · rfl
        · exfalso
          subst hq
          have hlast : (b :: q').getLast? = some a := by simpa using hl
          have : a ∈ b :: q' := List.mem_of_mem_getLast? hlast
          exact (List.nodup_cons.mp hn).1 this
      subst hq0
      simp
    · rw [if_neg hct]
      rcases hq : q with _ | ⟨v, q'⟩
      · exfalso
        subst hq
        have : a = t := by simpa using hl
        exact hct this
      subst hq
      apply List.mem_flatMap.mpr
      refine ⟨v, ?_, ?_⟩
      · apply List.mem_filter.mpr
        constructor
        · apply (mem_adjList E a v).mpr
          exact (List.chain'_cons'.mp hc).1 v rfl
        · have hvcur : v ≠ a := by
            intro hvc
            exact (List.nodup_cons.mp hn).1 (by simp [hvc])
          have hvvis : v ∉ visited := ha v (by simp)
          simp [hvcur, hvvis]
      · apply List.mem_map.mpr
        refine ⟨v :: q', ?_, rfl⟩
        apply ih (a :: visited) v (v :: q') rfl (by simpa using hl)
          (List.chain'_cons'.mp hc).2 (List.nodup_cons.mp hn).2 ?_
          (by simpa using hlen)
        intro x hx
        rw [List.mem_cons]
        push_neg
        constructor
        · intro hxc
          subst hxc
          exact (List.nodup_cons.mp hn).1 hx
        · exact ha x (List.mem_cons_of_mem _ hx)

/-- The selection is never `none` on a non-empty list. -/
theorem pickMin_ne_none (w : List ℕ → ℚ) (x : List ℕ) (xs : List (List ℕ)) :
    pickMin w (x :: xs) ≠ none := by
  unfold pickMin
  rcases hx : pickMin w xs with _ | q
  · simp
  · by_cases hw : w x ≤ w q <;> simp [hw]

/-- The selected candidate is in the list. -/
theorem pickMin_mem (w : List ℕ → ℚ) :
    ∀ l p, pickMin w l = some p → p ∈ l := by
  intro l
  induction l with
  | nil => intro p h; exact Option.noConfusion h
  | cons x xs ih =>
    intro p h
    unfold pickMin at h
    rcases hx : pickMin w xs with _ | q <;> simp only [hx] at h
    · obtain rfl : x = p := Option.some.inj h
      exact List.mem_cons_self _ _
    · by_cases hw : w x ≤ w q
      · rw [if_pos hw] at h
        obtain rfl : x = p := Option.some.inj h
        exact List.mem_cons_self _ _
      · rw [if_neg hw] at h
        obtain rfl : q = p := Option.some.inj h
        exact List.mem_cons_of_mem _ (ih _ hx)

/-- The selected candidate has minimal weight in the list. -/
theorem pickMin_le (w : List ℕ → ℚ) :
    ∀ l p, pickMin w l = some p → ∀ q ∈ l, w p ≤ w q := by
  intro l
  induction l with
  | nil => intro p h; exact Option.noConfusion h
  | cons x xs ih =>
    intro p h q hq
    unfold pickMin at h
    rcases hx : pickMin w xs with _ | m <;> simp only [hx] at h
    · obtain rfl : x = p := Option.some.inj h
      rcases List.mem_cons.mp hq with rfl | hq'
      · exact le_refl _
      · exfalso
        rcases xs with _ | ⟨y, ys⟩
        · exact absurd hq' (List.not_mem_nil _)
        · exact pickMin_ne_none w y ys hx
    · by_cases hwx : w x ≤ w m
      · rw [if_pos hwx] at h
        obtain rfl : x = p := Option.some.inj h
        rcases List.mem_cons.mp hq with rfl | hq'
        · exact le_refl _
        · exact le_trans hwx (ih m hx q hq')
      · rw [if_neg hwx] at h
        obtain rfl : m = p := Option.some.inj h
        rcases List.mem_cons.mp hq with rfl | hq'
        · exact le_of_lt (lt_of_not_le hwx)
        · exact ih _ hx q hq'

/-- With nonnegative travel times every step weight is nonnegative. -/
theorem edgeWeight_getD_nonneg (E : List SimEdge) (hw : ∀ e ∈ E, 0 ≤ e.tt)
    (u v : ℕ) : 0 ≤ (edgeWeight E u v).getD 0 := by
  unfold edgeWeight
  split
  · simp
  · next w ws hf =>
    simp only [Option.getD_some]
    have hall : ∀ x ∈ w :: ws, 0 ≤ x := by
      intro x hx
      rw [← hf] at hx
      rcases List.mem_map.mp hx with ⟨e, he, rfl⟩
      exact hw e (List.mem_filter.mp he).1
    have hfold : ∀ (l : List ℚ) (a : ℚ), 0 ≤ a → (∀ x ∈ l, 0 ≤ x) →
        0 ≤ l.foldl min a := by
      intro l
      induction l with
      | nil => intro a ha _; simpa using ha
      | cons y ys ihy =>
        intro a ha hl
        simp only [List.foldl_cons]
        exact ihy (min a y) (le_min ha (hl y (List.mem_cons_self _ _)))
          (fun x hx => hl x (List.mem_cons_of_mem _ hx))
    exact hfold ws w (hall w (List.mem_cons_self _ _))
      (fun x hx => hall x (List.mem_cons_of_mem _ hx))

/-- Path weights are nonnegative when all travel times are. -/
theorem pathWeight_nonneg (E : List SimEdge) (hw : ∀ e ∈ E, 0 ≤ e.tt) :
    ∀ p, 0 ≤ pathWeight E p := by
  intro p
  induction p with
  | nil => simp [pathWeight]
  | cons a l ih =>
    rcases l with _ | ⟨b, l'⟩
    · simp [pathWeight]
    · exact add_nonneg (edgeWeight_getD_nonneg E hw a b) ih

/-- Splitting the weight of a walk at an interior node. -/
theorem pathWeight_append (E : List SimEdge) (y : ℕ) (ys : List ℕ) :
    ∀ xs, pathWeight E (xs ++ y :: ys) =
      pathWeight E (xs ++ [y]) + pathWeight E (y :: ys) := by
  intro xs
  induction xs with
  | nil =>
    rcases ys with _ | ⟨z, zs⟩ <;> simp [pathWeight]
  | cons x xs ih =>
    rcases xs with _ | ⟨x2, xs'⟩
    · show pathWeight E (x :: y :: ys) = pathWeight E [x, y] + pathWeight E (y :: ys)
      show (edgeWeight E x y).getD 0 + pathWeight E (y :: ys) =
        ((edgeWeight E x y).getD 0 + pathWeight E [y]) + pathWeight E (y :: ys)
      simp [pathWeight]
    · have e1 : pathWeight E ((x :: x2 :: xs') ++ y :: ys) =
          (edgeWeight E x x2).getD 0 + pathWeight E ((x2 :: xs') ++ y :: ys) := rfl
      have e2 : pathWeight E ((x :: x2 :: xs') ++ [y]) =
          (edgeWeight E x x2).getD 0 + pathWeight E ((x2 :: xs') ++ [y]) := rfl
      rw [e1, e2, ih]
      ring

/-- A suffix of a walk weighs no more than the whole walk. -/
theorem pathWeight_suffix_le (E : List SimEdge) (hw : ∀ e ∈ E, 0 ≤ e.tt)
    (q1 : List ℕ) (s : ℕ) (q2 : List ℕ) :
    pathWeight E (s :: q2) ≤ pathWeight E (q1 ++ s :: q2) := by
  rw [pathWeight_append E s q2 q1]
  have := pathWeight_nonneg E hw (q1 ++ [s])
  linarith

/-- De-looping: every walk from `s` to `t` dominates a duplicate-free walk
of no larger weight (nonnegative weights). -/
theorem deloop (E : List SimEdge) (hw : ∀ e ∈ E, 0 ≤ e.tt) (t : ℕ) :
    ∀ n p s, p.length ≤ n → IsPathFT E s t p →
      ∃ q, IsPathFT E s t q ∧ q.Nodup ∧ pathWeight E q ≤ pathWeight E p := by
  intro n
  induction n with
  | zero =>
    intro p s hlen hp
    obtain ⟨hh, _, _⟩ := hp
    rcases p with _ | ⟨a, rest⟩
    · exact Option.noConfusion hh
    · simp at hlen
  | succ n ih =>
    intro p s hlen hp
    obtain ⟨hh, hl, hc⟩ := hp
    rcases p with _ | ⟨a, rest⟩
    · exact Option.noConfusion hh
    have has : a = s := by simpa using hh
    subst has
    rcases rest with _ | ⟨v, rest'⟩
    · have hst : a = t := by simpa using hl
      exact ⟨[a], ⟨rfl, by simp [hst], List.chain'_singleton _⟩,
        List.nodup_singleton _, le_refl _⟩
    · have hrest : IsPathFT E v t (v :: rest') :=
        ⟨rfl, by simpa using hl, (List.chain'_cons'.mp hc).2⟩
      obtain ⟨q', hq'path, hq'nd, hq'w⟩ :=
        ih (v :: rest') v (by simpa using hlen) hrest
      obtain ⟨q'h, q'l, q'c⟩ := hq'path
      have hadj : adjacent E a v := (List.chain'_cons'.mp hc).1 v rfl
      rcases q' with _ | ⟨v0, q''⟩
      · exact Option.noConfusion q'h
      have hv0 : v0 = v := by simpa using q'h
      subst hv0
      have hstep : pathWeight E (a :: v0 :: rest') =
          (edgeWeight E a v0).getD 0 + pathWeight E (v0 :: rest') := rfl
      by_cases hsq : a ∈ v0 :: q''
      · rcases List.append_of_mem hsq with ⟨q1, q2, hsplit⟩
        refine ⟨a :: q2, ⟨rfl, ?_, ?_⟩, ?_, ?_⟩
        · rw [hsplit, List.getLast?_append_of_ne_nil q1 (by simp)] at q'l
          exact q'l
        · rw [hsplit] at q'c
          exact (List.chain'_append.mp q'c).2.1
        · rw [hsplit] at hq'nd
          exact (List.suffix_append q1 (a :: q2)).sublist.nodup hq'nd
        · have h1 : pathWeight E (a :: q2) ≤ pathWeight E (q1 ++ a :: q2) :=
            pathWeight_suffix_le E hw q1 a q2
          rw [← hsplit] at h1
          have h2 : 0 ≤ (edgeWeight E a v0).getD 0 :=
            edgeWeight_getD_nonneg E hw a v0
          calc pathWeight E (a :: q2) ≤ pathWeight E (v0 :: q'') := h1
            _ ≤ pathWeight E (v0 :: rest') := hq'w
            _ ≤ pathWeight E (a :: v0 :: rest') := by rw [hstep]; linarith
      · refine ⟨a :: v0 :: q'', ⟨rfl, by simpa using q'l, ?_⟩, ?_, ?_⟩
        · exact List.chain'_cons'.mpr
            ⟨fun y hy => by obtain rfl : v0 = y := by simpa using hy
                            exact hadj, q'c⟩
        · exact List.nodup_cons.mpr ⟨hsq, hq'nd⟩
        · have hstep2 : pathWeight E (a :: v0 :: q'') =
              (edgeWeight E a v0).getD 0 + pathWeight E (v0 :: q'') := rfl
          rw [hstep, hstep2]
          exact add_le_add_left hq'w _

/-- Every node of a walk starting inside the node list stays inside it,
when all edge endpoints do. -/
theorem path_mem_nodes (E : List SimEdge) (nodes : List ℕ)
    (hE : ∀ e ∈ E, e.u ∈ nodes ∧ e.v ∈ nodes) :
    ∀ (p : List ℕ) (s : ℕ), p.head? = some s → s ∈ nodes →
      p.Chain' (adjacent E) → ∀ x ∈ p, x ∈ nodes := by
  intro p
  induction p with
  | nil => intro s _ _ _ x hx; exact absurd hx (List.not_mem_nil _)
  | cons a l ih =>
    intro s hh hs hc x hx
    have has : a = s := by simpa using hh
    subst has
    rcases List.mem_cons.mp hx with rfl | hx'
    · exact hs
    · rcases l with _ | ⟨b, l'⟩
      · exact absurd hx' (List.not_mem_nil _)
      · have hadj : adjacent E a b := (List.chain'_cons'.mp hc).1 b rfl
        rcases (adjacent_iff_mem E a b).mp hadj with ⟨e, he, _, hv⟩
        have hb : b ∈ nodes := hv ▸ (hE e he).2
        exact ih b rfl hb (List.chain'_cons'.mp hc).2 x hx'

/-- A duplicate-free walk from `s` to `t` appears in the bounded-fuel
enumeration used by the router. -/
theorem simple_path_enum_mem (E : List SimEdge) (nodes : List ℕ)
    (hE : ∀ e ∈ E, e.u ∈ nodes ∧ e.v ∈ nodes) (s t : ℕ) (hs : s ∈ nodes)
    (q : List ℕ) (hq : IsPathFT E s t q) (hnd : q.Nodup) :
    q ∈ simplePaths E t nodes.length [] s := by
  obtain ⟨h1, h2, h3⟩ := hq
  apply simplePaths_complete E t nodes.length [] s q h1 h2 h3 hnd (by simp)
  have hsub : ∀ x ∈ q, x ∈ nodes := path_mem_nodes E nodes hE q s h1 hs h3
  calc q.length = q.toFinset.card := (List.toFinset_card_of_nodup hnd).symm
    _ ≤ nodes.toFinset.card := Finset.card_le_card
        (fun x hx => List.mem_toFinset.mpr (hsub x (List.mem_toFinset.mp hx)))
    _ ≤ nodes.length := nodes.toFinset_card_le

/-- Correctness of the router model: for a reachable pair the returned
node sequence is a minimum-weight simple walk from source to target. -/
theorem shortest_path_spec (E : List SimEdge) (nodes : List ℕ) (s t : ℕ)
    (hw : ∀ e ∈ E, 0 ≤ e.tt) (hE : ∀ e ∈ E, e.u ∈ nodes ∧ e.v ∈ nodes)
    (hs : s ∈ nodes) (ht : t ∈ nodes)
    (p0 : List ℕ) (hp0 : IsPathFT E s t p0) :
    ∃ q, shortest_path E nodes s t = some q ∧ IsPathFT E s t q ∧ q.Nodup ∧
      ∀ p, IsPathFT E s t p → pathWeight E q ≤ pathWeight E p := by
  obtain ⟨q0, hq0p, hq0n, _⟩ := deloop E hw t p0.length p0 s (le_refl _) hp0
  have hq0mem : q0 ∈ simplePaths E t nodes.length [] s :=
    simple_path_enum_mem E nodes hE s t hs q0 hq0p hq0n
  unfold shortest_path
  rw [if_pos ⟨hs, ht⟩]
  rcases hq : pickMin (pathWeight E) (simplePaths E t nodes.length [] s) with _ | q
  · exfalso
    rcases henum : simplePaths E t nodes.length [] s with _ | ⟨z, zs⟩
    · rw [henum] at hq0mem
      exact absurd hq0mem (List.not_mem_nil _)
    · rw [henum] at hq
      exact pickMin_ne_none _ z zs hq
  · obtain ⟨g1, g2, g3, g4, _⟩ := simplePaths_sound E t nodes.length [] s q
      (by simp) (pickMin_mem _ _ _ hq)
    refine ⟨q, rfl, ⟨g1, g2, g3⟩, g4, ?_⟩
    intro p hp
    obtain ⟨q1, hq1p, hq1n, hq1w⟩ := deloop E hw t p.length p s (le_refl _) hp
    have hq1mem : q1 ∈ simplePaths E t nodes.length [] s :=
      simple_path_enum_mem E nodes hE s t hs q1 hq1p hq1n
    exact le_trans (pickMin_le _ _ _ hq q1 hq1mem) hq1w

/-! ## C4 — route computation -/

/-- C4 (counterexample): with source equal to target (a reachable pair —
the one-node walk exists), the route computation returns the empty
sequence, which does not include the target: the claim "includes the
target" fails at source = target, because `nx.shortest_path(G, s, s)`
returns `[s]` and the source pop leaves an empty route. -/
theorem claim4_counterexample :
    IsPathFT ([] : List SimEdge) 0 0 [0] ∧
    shortest_path ([] : List SimEdge) [0] 0 0 = some [0] ∧
    VehicleAgent.calculate_new_path rOne rtSt 0 = rtSt ∧
    ∀ a ∈ rtSt.agents, a.dest = 0 ∧ (0 : ℕ) ∉ a.path := by
  refine ⟨⟨rfl, rfl, List.chain'_singleton _⟩, by decide, by decide, by decide⟩

/-- C4 (amended): for every pair (source, target) with target reachable
from source and target different from source, the route stored by
`calculate_new_path` excludes the source, includes the target, contains no
repeated node, and its consecutive elements (starting from the source) are
adjacent in the graph; with the source prepended its total weight under
the current snapshot is minimal over all source-to-target walks. When
target equals source the stored route is empty. -/
theorem claim4_route_correct (r : ℕ → ℕ) (st : SimState) (aid : ℕ)
    (a : AgentSt)
    (ha : st.agents[aid]? = some a)
    (hw : ∀ e ∈ st.edges, 0 ≤ e.tt)
    (hE : ∀ e ∈ st.edges, e.u ∈ st.nodes ∧ e.v ∈ st.nodes)
    (hne : a.pos ≠ a.dest)
    (hs : a.pos ∈ st.nodes) (ht : a.dest ∈ st.nodes)
    (p0 : List ℕ) (hp0 : IsPathFT st.edges a.pos a.dest p0) :
    ∃ rt, VehicleAgent.calculate_new_path r st aid =
        setAgent st aid { a with path := rt } ∧
      a.dest ∈ rt ∧ a.pos ∉ rt ∧ rt.Nodup ∧
      IsPathFT st.edges a.pos a.dest (a.pos :: rt) ∧
      ∀ p, IsPathFT st.edges a.pos a.dest p →
        pathWeight st.edges (a.pos :: rt) ≤ pathWeight st.edges p := by
  obtain ⟨q, hq, hqp, hqn, hqmin⟩ :=
    shortest_path_spec st.edges st.nodes a.pos a.dest hw hE hs ht p0 hp0
  obtain ⟨qh, ql, qc⟩ := hqp
  rcases q with _ | ⟨s0, rt⟩
  · exact Option.noConfusion qh
  have hs0 : s0 = a.pos := by simpa using qh
  subst hs0
  refine ⟨rt, ?_, ?_, ?_, ?_, ⟨rfl, ql, qc⟩, ?_⟩
  · unfold VehicleAgent.calculate_new_path
    simp only [ha, hq, List.tail_cons]
  · have hdq : a.dest ∈ a.pos :: rt := List.mem_of_mem_getLast? ql
    rcases List.mem_cons.mp hdq with h1 | h2
    · exact absurd h1.symm hne
    · exact h2
  · exact (List.nodup_cons.mp hqn).1
  · exact (List.nodup_cons.mp hqn).2
  · exact hqmin

/-- C4 witness: the amended route-correctness theorem at the concrete line
network `lineSt` (agent at 0, destination 2, witness walk `[0, 1, 2]`). -/
theorem claim4_witness :
    ∃ rt, VehicleAgent.calculate_new_path rOne lineSt 0 =
        setAgent lineSt 0 { pos := 0, dest := 2, path := rt } ∧
      (2 : ℕ) ∈ rt ∧ (0 : ℕ) ∉ rt ∧ rt.Nodup ∧
      IsPathFT lineSt.edges 0 2 (0 :: rt) ∧
      ∀ p, IsPathFT lineSt.edges 0 2 p →
        pathWeight lineSt.edges (0 :: rt) ≤ pathWeight lineSt.edges p :=
  claim4_route_correct rOne lineSt 0 ⟨0, 2, []⟩ rfl (by decide) (by decide)
    (by decide) (by decide) (by decide) [0, 1, 2]
    (by
      refine ⟨rfl, rfl, ?_⟩
      rw [List.chain'_cons, List.chain'_cons]
      exact ⟨by decide, by decide, List.chain'_singleton _⟩)

/-! ## Association-list lookup facts -/

/-- A successful lookup is a member of the association list. -/
theorem lookup_mem : ∀ (g : List (ℕ × List ℕ)) (n : ℕ) (l : List ℕ),
    g.lookup n = some l → (n, l) ∈ g := by
  intro g
  induction g with
  | nil => intro n l h; exact Option.noConfusion h
  | cons pr g ih =>
    intro n l h
    rw [show pr = (pr.1, pr.2) from rfl, List.lookup_cons] at h
    by_cases hn : n = pr.1
    · simp only [hn, beq_self_eq_true] at h
      obtain rfl : pr.2 = l := Option.some.inj h
      simp [hn]
    · have hb : (n == pr.1) = false := beq_eq_false_iff_ne.mpr hn
      rw [hb] at h
      exact List.mem_cons_of_mem _ (ih n l h)

/-- A key present in the association list has a successful lookup. -/
theorem lookup_of_mem_keys : ∀ (g : List (ℕ × List ℕ)) (n : ℕ),
    n ∈ g.map Prod.fst → ∃ l, g.lookup n = some l := by
  intro g
  induction g with
  | nil => intro n h; exact absurd h (List.not_mem_nil _)
  | cons pr g ih =>
    intro n h
    rw [show pr = (pr.1, pr.2) from rfl, List.lookup_cons]
    by_cases hn : n = pr.1
    · exact ⟨pr.2, by simp [hn]⟩
    · have hb : (n == pr.1) = false := beq_eq_false_iff_ne.mpr hn
      rw [hb]
      apply ih
      rw [List.map_cons] at h
      rcases List.mem_cons.mp h with h1 | h2
      · exact absurd h1 hn
      · exact h2

/-! ## Occupancy invariant consequences -/

/-- A canonical grid puts each live agent in exactly one node's set. -/
theorem canon_exactlyOne (st : SimState) (h : OccInv st) : ExactlyOne st := by
  obtain ⟨hnd, ⟨hkeys, hcanon⟩, hpos⟩ := h
  intro i hi
  have hilt : i < (st.agents.map AgentSt.pos).length := by simpa using hi
  rcases hip : (st.agents.map AgentSt.pos)[i]? with _ | n0
  · rw [List.getElem?_eq_getElem hilt] at hip
    exact Option.noConfusion hip
  have hn0nodes : n0 ∈ st.nodes := by
    have hmem : n0 ∈ st.agents.map AgentSt.pos := by
      rcases List.getElem?_eq_some_iff.mp hip with ⟨h1, h2⟩
      rw [← h2]
      exact List.getElem_mem h1
    rcases List.mem_map.mp hmem with ⟨a, haa, hpa⟩
    exact hpa ▸ hpos a haa
  refine ⟨n0, ?_, ?_⟩
  · rcases lookup_of_mem_keys st.grid n0 (by rw [hkeys]; exact hn0nodes) with ⟨l, hl⟩
    rw [hl, Option.getD_some]
    exact ((hcanon (n0, l) (lookup_mem _ _ _ hl)).2 i).mpr hip
  · intro m hm
    rcases hlm : st.grid.lookup m with _ | lm
    · rw [hlm] at hm
      exact absurd hm (List.not_mem_nil _)
    · rw [hlm, Option.getD_some] at hm
      have := ((hcanon (m, lm) (lookup_mem _ _ _ hlm)).2 i).mp hm
      have : some m = some n0 := by rw [← this, hip]
      exact Option.some.inj this

/-- A canonical grid has total occupancy equal to the live agent count. -/
theorem canon_occSum (st : SimState) (h : OccInv st) :
    occSum st = st.agents.length := by
  obtain ⟨hnd, ⟨hkeys, hcanon⟩, hpos⟩ := h
  set P := st.agents.map AgentSt.pos with hP
  have hPlen : P.length = st.agents.length := by simp [hP]
  have hPmem : ∀ x ∈ P, x ∈ st.nodes := by
    intro x hx
    rcases List.mem_map.mp hx with ⟨a, haa, hpa⟩
    exact hpa ▸ hpos a haa
  -- each entry's size is the size of the fiber of positions over its key
  have hentry : ∀ pr ∈ st.grid, pr.2.length =
      ((Finset.range st.agents.length).filter
        (fun i => P.getD i 0 = pr.1)).card := by
    intro pr hpr
    obtain ⟨hnodup, hmem⟩ := hcanon pr hpr
    rw [← List.toFinset_card_of_nodup hnodup]
    congr 1
    apply Finset.ext
    intro i
    rw [List.mem_toFinset, Finset.mem_filter, Finset.mem_range, hmem i]
    constructor
    · intro hip
      have hilt : i < P.length := (List.getElem?_eq_some_iff.mp hip).1
      have := (List.getElem?_eq_some_iff.mp hip).2
      refine ⟨by omega, ?_⟩
      rw [List.getD_eq_getElem P 0 hilt]
      exact this
    · rintro ⟨hilt, hgd⟩
      have hilt' : i < P.length := by omega
      rw [List.getD_eq_getElem P 0 hilt'] at hgd
      rw [List.getElem?_eq_getElem hilt', hgd]
  -- sum the fibers
  have hmapmap : st.grid.map (fun pr => pr.2.length) =
      st.nodes.map (fun n => ((Finset.range st.agents.length).filter
        (fun i => P.getD i 0 = n)).card) := by
    rw [← hkeys, List.map_map]
    exact List.map_congr_left hentry
  unfold occSum
  rw [hmapmap, ← List.sum_toFinset _ hnd]
  have hmem : ∀ i ∈ Finset.range st.agents.length,
      (fun j => P.getD j 0) i ∈ st.nodes.toFinset := by
    intro i hi
    rw [Finset.mem_range] at hi
    have hilt : i < P.length := by omega
    apply List.mem_toFinset.mpr
    apply hPmem
    show P.getD i 0 ∈ P
    rw [List.getD_eq_getElem P 0 hilt]
    exact List.getElem_mem hilt
  have hcard := @Finset.card_eq_sum_card_fiberwise ℕ ℕ _
    (fun j => P.getD j 0) (Finset.range st.agents.length)
    st.nodes.toFinset hmem
  rw [Finset.card_range] at hcard
  exact hcard.symm

/-! ## Movement preserves the occupancy invariant -/

/-- Membership after a set-style insertion. -/
theorem mem_addVal (aid : ℕ) (l1 : List ℕ) (j : ℕ) :
    (j ∈ if aid ∈ l1 then l1 else l1 ++ [aid]) ↔ j ∈ l1 ∨ j = aid := by
  by_cases h : aid ∈ l1
  · rw [if_pos h]
    constructor
    · exact Or.inl
    · rintro (hj | rfl)
      · exact hj
      · exact h
  · rw [if_neg h]
    simp

/-- A set-style insertion keeps the list duplicate-free. -/
theorem nodup_addVal (aid : ℕ) (l1 : List ℕ) (h : l1.Nodup) :
    (if aid ∈ l1 then l1 else l1 ++ [aid]).Nodup := by
  by_cases hm : aid ∈ l1
  · rwa [if_pos hm]
  · rw [if_neg hm]
    simp [List.nodup_append, h, hm]

/-- Keys are untouched by the removal pass. -/
theorem gridRemove_keys (g : List (ℕ × List ℕ)) (c i : ℕ) :
    (gridRemove g c i).map Prod.fst = g.map Prod.fst := by
  unfold gridRemove
  rw [List.map_map]
  apply List.map_congr_left
  intro pr _
  by_cases h : pr.1 = c <;> simp [h]

/-- Keys are untouched by the insertion pass. -/
theorem gridAdd_keys (g : List (ℕ × List ℕ)) (p i : ℕ) :
    (gridAdd g p i).map Prod.fst = g.map Prod.fst := by
  unfold gridAdd
  rw [List.map_map]
  apply List.map_congr_left
  intro pr _
  by_cases h : pr.1 = p <;> simp [h]

/-- Composed action of the removal and insertion passes on one grid
entry. -/
theorem moveEntry (cur newPos aid n : ℕ) (l : List ℕ) :
    ((fun q : ℕ × List ℕ =>
        if q.1 = newPos then (q.1, if aid ∈ q.2 then q.2 else q.2 ++ [aid])
        else q)
      ((fun q : ℕ × List ℕ =>
        if q.1 = cur then (q.1, q.2.filter (fun x => x ≠ aid)) else q) (n, l)))
    = (n, (if n = newPos then (fun l2 => if aid ∈ l2 then l2 else l2 ++ [aid])
          else id)
        (if n = cur then l.filter (fun x => x ≠ aid) else l)) := by
  by_cases hc : n = cur <;> by_cases hp : n = newPos
  · subst hc; subst hp; simp
  · subst hc; simp [hp]
  · subst hp; simp [hc]
  · simp [hc, hp]

/-- Membership in a transformed grid entry. -/
theorem mem_moveEntry (cur newPos aid j n : ℕ) (l : List ℕ) :
    (j ∈ (if n = newPos then (fun l2 => if aid ∈ l2 then l2 else l2 ++ [aid])
        else id)
      (if n = cur then l.filter (fun x => x ≠ aid) else l)) ↔
    ((if n = cur then j ∈ l ∧ j ≠ aid else j ∈ l) ∨ (j = aid ∧ n = newPos)) := by
  by_cases hc : n = cur <;> by_cases hp : n = newPos
  · subst hc; subst hp
    simp only [eq_self_iff_true, if_true]
    rw [mem_addVal]
    simp [List.mem_filter]
    try tauto
  · subst hc
    simp only [eq_self_iff_true, if_true, if_neg hp, id_eq]
    try simp [List.mem_filter, hp]
  · subst hp
    simp only [eq_self_iff_true, if_true, if_neg hc]
    rw [mem_addVal]
    simp [hc]
  · simp only [if_neg hc, if_neg hp, id_eq]
    simp [hc, hp]

/-- The transformed entry is duplicate-free. -/
theorem nodup_moveEntry (cur newPos aid n : ℕ) (l : List ℕ) (h : l.Nodup) :
    ((if n = newPos then (fun l2 => if aid ∈ l2 then l2 else l2 ++ [aid])
        else id)
      (if n = cur then l.filter (fun x => x ≠ aid) else l)).Nodup := by
  have hbase : (if n = cur then l.filter (fun x => x ≠ aid) else l).Nodup := by
    by_cases hc : n = cur
    · rw [if_pos hc]; exact List.Nodup.filter _ h
    · rwa [if_neg hc]
  by_cases hp : n = newPos
  · rw [if_pos hp]
    exact nodup_addVal _ _ hbase
  · rwa [if_neg hp]

/-- The occupancy invariant survives a successful `move_agent`: the grid
stays canonical for the updated positions, and the moved agent lands on a
graph node. -/
theorem move_agent_occInv (st st' : SimState) (aid newPos : ℕ)
    (hInv : OccInv st)
    (h : CityModel.move_agent st aid newPos = some st') :
    OccInv st' ∧ st'.agents.length = st.agents.length := by
  obtain ⟨hnd, ⟨hkeys, hcanon⟩, hpos⟩ := hInv
  unfold CityModel.move_agent at h
  rcases ha : st.agents[aid]? with _ | a
  · simp only [ha] at h
    exact Option.noConfusion h
  simp only [ha] at h
  rcases hlk : st.grid.lookup a.pos with _ | l
  · simp only [hlk] at h
    exact Option.noConfusion h
  simp only [hlk] at h
  by_cases hmem : aid ∈ l
  swap
  · rw [if_neg hmem] at h; exact Option.noConfusion h
  rw [if_pos hmem] at h
  rcases hlk' : st.grid.lookup newPos with _ | l'
  · simp only [hlk'] at h
    exact Option.noConfusion h
  simp only [hlk'] at h
  obtain rfl : _ = st' := Option.some.inj h
  have halen : aid < st.agents.length := (List.getElem?_eq_some_iff.mp ha).1
  have hPlen : aid < (st.agents.map AgentSt.pos).length := by simpa using halen
  have hPaid : (st.agents.map AgentSt.pos)[aid]? = some a.pos := by
    rcases List.getElem?_eq_some_iff.mp ha with ⟨h1, h2⟩
    rw [List.getElem?_eq_getElem hPlen]
    simp [h2]
  have hnewmem : newPos ∈ st.nodes := by
    rw [← hkeys]
    exact List.mem_map_of_mem Prod.fst (lookup_mem _ _ _ hlk')
  have hP' : (List.map AgentSt.pos
      (st.agents.set aid { pos := newPos, dest := a.dest, path := a.path })) =
      (st.agents.map AgentSt.pos).set aid newPos := by
    rw [List.map_set]
  refine ⟨⟨hnd, ⟨?_, ?_⟩, ?_⟩, by simp⟩
  · show (gridAdd (gridRemove st.grid a.pos aid) newPos aid).map Prod.fst = st.nodes
    rw [gridAdd_keys, gridRemove_keys, hkeys]
  · intro pr' hpr'
    unfold gridAdd gridRemove at hpr'
    rw [List.map_map] at hpr'
    rcases List.mem_map.mp hpr' with ⟨pr, hpr, heq⟩
    obtain ⟨hnodup0, hmem0⟩ := hcanon pr hpr
    obtain ⟨n0, l0⟩ := pr
    have hkey : pr' = (n0,
        (if n0 = newPos then (fun l2 => if aid ∈ l2 then l2 else l2 ++ [aid])
          else id)
        (if n0 = a.pos then l0.filter (fun x => x ≠ aid) else l0)) := by
      rw [← heq]
      exact moveEntry a.pos newPos aid n0 l0
    have hfst : pr'.1 = n0 := by rw [hkey]
    have hsnd : pr'.2 =
        (if n0 = newPos then (fun l2 => if aid ∈ l2 then l2 else l2 ++ [aid])
          else id)
        (if n0 = a.pos then l0.filter (fun x => x ≠ aid) else l0) := by
      rw [hkey]
    constructor
    · rw [hsnd]
      exact nodup_moveEntry _ _ _ _ _ hnodup0
    · intro j
      rw [hsnd, hfst, mem_moveEntry, hP']
      by_cases hj : j = aid
      · subst hj
        have hfirst : ¬ (if n0 = a.pos then j ∈ l0 ∧ j ≠ j else j ∈ l0) := by
          by_cases hc : n0 = a.pos
          · rw [if_pos hc]; rintro ⟨_, hne⟩; exact hne rfl
          · rw [if_neg hc]
            intro hjl
            have := (hmem0 j).mp hjl
            rw [hPaid] at this
            exact hc (Option.some.inj this).symm
        rw [List.getElem?_set_self hPlen]
        constructor
        · rintro (h1 | ⟨_, h2⟩)
          · exact absurd h1 hfirst
          · rw [h2]
        · intro hsome
          exact Or.inr ⟨rfl, (Option.some.inj hsome).symm⟩
      · rw [List.getElem?_set_ne (fun hh => hj hh.symm)]
        constructor
        · rintro (h1 | ⟨h2, _⟩)
          · apply (hmem0 j).mp
            by_cases hc : n0 = a.pos
            · rw [if_pos hc] at h1; exact h1.1
            · rwa [if_neg hc] at h1
          · exact absurd h2 hj
        · intro hsome
          left
          have hjl : j ∈ l0 := (hmem0 j).mpr hsome
          by_cases hc : n0 = a.pos
          · rw [if_pos hc]; exact ⟨hjl, hj⟩
          · rwa [if_neg hc]
  · intro a' ha'
    rcases List.mem_or_eq_of_mem_set ha' with hold | rfl
    · exact hpos a' hold
    · exact hnewmem

/-! ## State-congruence and per-phase preservation -/

/-- The occupancy invariant only depends on the nodes, the grid, and the
agents' positions. -/
theorem occInv_congr (st st' : SimState) (hn : st'.nodes = st.nodes)
    (hg : st'.grid = st.grid)
    (hmp : st'.agents.map AgentSt.pos = st.agents.map AgentSt.pos)
    (h : OccInv st) : OccInv st' := by
  obtain ⟨h1, ⟨h2, h3⟩, h4⟩ := h
  refine ⟨hn ▸ h1, ⟨by rw [hg, hn, h2], ?_⟩, ?_⟩
  · intro pr hpr
    rw [hg] at hpr
    obtain ⟨hh1, hh2⟩ := h3 pr hpr
    exact ⟨hh1, fun i => by rw [hmp]; exact hh2 i⟩
  · intro a ha
    have hmem : a.pos ∈ st'.agents.map AgentSt.pos := List.mem_map_of_mem _ ha
    rw [hmp] at hmem
    rcases List.mem_map.mp hmem with ⟨b, hb, hpb⟩
    rw [hn, ← hpb]
    exact h4 b hb

/-- Route recomputation transfers along streams that agree on the consumed
window. -/
theorem calc_agree (r1 r2 : ℕ → ℕ) (st : SimState) (aid : ℕ)
    (hA : Agree r1 r2 st.rcount
      (VehicleAgent.calculate_new_path r1 st aid).rcount) :
    VehicleAgent.calculate_new_path r2 st aid =
      VehicleAgent.calculate_new_path r1 st aid := by
  unfold VehicleAgent.calculate_new_path
  rcases ha : st.agents[aid]? with _ | a
  · simp only [ha]
  · simp only [ha]
    rcases hsp : shortest_path st.edges st.nodes a.pos a.dest with _ | p
    · simp only [VehicleAgent.calculate_new_path, ha, hsp, draw, setAgent] at hA
      have h0 : r1 st.rcount = r2 st.rcount :=
        hA st.rcount (le_refl _) (by omega)
      simp only [hsp, draw, ← h0]
    · simp only [hsp]

/-- Popping a route node and moving preserves the occupancy invariant. -/
theorem popAndMove_occInv (st st' : SimState) (aid : ℕ)
    (h : VehicleAgent.popAndMove st aid = some st') (hInv : OccInv st) :
    OccInv st' ∧ st'.agents.length = st.agents.length := by
  unfold VehicleAgent.popAndMove at h
  rcases ha : st.agents[aid]? with _ | a
  · simp only [ha] at h
    exact Option.noConfusion h
  simp only [ha] at h
  rcases hp : a.path with _ | ⟨p, rest⟩
  · simp only [hp] at h
    exact Option.noConfusion h
  simp only [hp] at h
  have hmid : OccInv (setAgent st aid { pos := a.pos, dest := a.dest, path := rest }) :=
    occInv_congr st _ rfl rfl
      (map_set_same AgentSt.pos st.agents aid a _ ha rfl) hInv
  have hres := move_agent_occInv _ _ _ _ hmid h
  refine ⟨hres.1, ?_⟩
  rw [hres.2]
  simp [setAgent]

/-- Fields preserved by the congestion pass, plus the travel-time lower
bound it (re-)establishes. -/
theorem congEdge_spec (g : List (ℕ × List ℕ)) (e e' : SimEdge)
    (h : congEdge g e = some e') :
    e'.u = e.u ∧ e'.v = e.v ∧ e'.base = e.base ∧ e'.lanes = e.lanes ∧
    (0 ≤ e.base → 1 ≤ e.lanes → e.tt = e.base → e.base ≤ e'.tt) := by
  unfold congEdge at h
  by_cases hlt : e.lanes * CAPACITY_PER_LANE <
      (occOf g e.u : ℤ) + (occOf g e.v : ℤ)
  · rw [if_pos hlt] at h
    by_cases hz : e.lanes * CAPACITY_PER_LANE = 0
    · rw [if_pos hz] at h
      exact Option.noConfusion h
    · rw [if_neg hz] at h
      obtain rfl : _ = e' := Option.some.inj h
      refine ⟨rfl, rfl, rfl, rfl, ?_⟩
      intro hb hl _
      show e.base ≤ e.base * _
      apply le_mul_of_one_le_right hb
      have hcap : (10 : ℤ) ≤ e.lanes * CAPACITY_PER_LANE := by
        unfold CAPACITY_PER_LANE
        nlinarith
      have hcapq : (0 : ℚ) < ((e.lanes * CAPACITY_PER_LANE : ℤ) : ℚ) := by
        exact_mod_cast lt_of_lt_of_le (by norm_num) hcap
      rw [le_div_iff hcapq, one_mul]
      exact_mod_cast le_of_lt hlt
  · rw [if_neg hlt] at h
    obtain rfl : e = e' := Option.some.inj h
    exact ⟨rfl, rfl, rfl, rfl, fun _ _ ht => le_of_eq ht.symm⟩

/-- Successful `mapO` membership inversion. -/
theorem mapO_mem {α β : Type} (f : α → Option β) :
    ∀ (l : List α) (l2 : List β), mapO f l = some l2 →
      ∀ y ∈ l2, ∃ x ∈ l, f x = some y := by
  intro l
  induction l with
  | nil =>
    intro l2 h y hy
    obtain rfl : ([] : List β) = l2 := Option.some.inj h
    exact absurd hy (List.not_mem_nil _)
  | cons x xs ih =>
    intro l2 h y hy
    unfold mapO at h
    rcases hx : f x with _ | z
    · rw [hx] at h
      exact Option.noConfusion h
    rw [hx] at h
    rcases hxs : mapO f xs with _ | zs
    · rw [hxs] at h
      exact Option.noConfusion h
    rw [hxs] at h
    simp only [Option.map_some] at h
    obtain rfl : z :: zs = l2 := by simpa using h
    rcases List.mem_cons.mp hy with rfl | hy'
    · exact ⟨x, List.mem_cons_self _ _, hx⟩
    · rcases ih zs hxs y hy' with ⟨w, hw, hfw⟩
      exact ⟨w, List.mem_cons_of_mem _ hw, hfw⟩

/-- Fields preserved by `CityModel.update`, and the invariants it keeps or
establishes. -/
theorem update_props (st st' : SimState) (h : CityModel.update st = some st') :
    st'.nodes = st.nodes ∧ st'.grid = st.grid ∧ st'.tracker = st.tracker ∧
    st'.agents = st.agents ∧ st'.rcount = st.rcount ∧ st'.t = st.t ∧
    (EdgesStatic st → EdgesStatic st' ∧ TTge st') ∧
    (OccInv st → OccInv st') := by
  unfold CityModel.update at h
  rcases hm : mapO (congEdge st.grid) (st.edges.map resetE) with _ | es
  · simp only [hm] at h
    exact Option.noConfusion h
  simp only [hm] at h
  by_cases hag : st.agents.isEmpty
  · rw [if_pos hag] at h
    exact Option.noConfusion h
  rw [if_neg hag] at h
  obtain rfl : _ = st' := Option.some.inj h
  refine ⟨rfl, rfl, rfl, rfl, rfl, rfl, ?_, ?_⟩
  · intro hstat
    have hmem : ∀ y ∈ es, ∃ e ∈ st.edges, congEdge st.grid (resetE e) = some y := by
      intro y hy
      rcases mapO_mem _ _ _ hm y hy with ⟨x, hx, hfx⟩
      rcases List.mem_map.mp hx with ⟨e, he, rfl⟩
      exact ⟨e, he, hfx⟩
    constructor
    · intro y hy
      rcases hmem y hy with ⟨e, he, hfe⟩
      obtain ⟨_, _, hb, hl, _⟩ := congEdge_spec _ _ _ hfe
      obtain ⟨hb0, hl0⟩ := hstat e he
      constructor
      · rw [hb]; exact hb0
      · rw [hl]; exact hl0
    · intro y hy
      rcases hmem y hy with ⟨e, he, hfe⟩
      obtain ⟨_, _, hb, _, htt⟩ := congEdge_spec _ _ _ hfe
      obtain ⟨hb0, hl0⟩ := hstat e he
      rw [hb]
      exact htt hb0 hl0 rfl
  · intro hInv
    exact occInv_congr _ st rfl rfl rfl hInv

/-- The step body is its core applied to the recompute-phase state. -/
theorem step_eq_core (r : ℕ → ℕ) (st : SimState) (aid : ℕ) :
    VehicleAgent.step r st aid = VehicleAgent.stepCore r
      (if st.t % RECALCULATE_PATH_STEPS = 0 then
        VehicleAgent.calculate_new_path r st aid else st) aid := rfl

/-- Everything the run-level claims need to know about the step core:
preserved fields, draw-count monotonicity, transfer along streams agreeing
on the consumed window, and preservation of the occupancy invariant. -/
theorem stepCore_props (r1 r2 : ℕ → ℕ) (st1 st' : SimState) (aid : ℕ)
    (h : VehicleAgent.stepCore r1 st1 aid = some st') :
    st'.edges = st1.edges ∧ st'.nodes = st1.nodes ∧ st'.t = st1.t ∧
    st1.rcount ≤ st'.rcount ∧
    (Agree r1 r2 st1.rcount st'.rcount →
      VehicleAgent.stepCore r2 st1 aid = some st') ∧
    (OccInv st1 → OccInv st' ∧ st'.agents.length = st1.agents.length) := by
  unfold VehicleAgent.stepCore at h
  rcases ha1 : st1.agents[aid]? with _ | a1
  · simp only [ha1] at h
    exact Option.noConfusion h
  simp only [ha1] at h
  by_cases hpe : a1.path.isEmpty = true
  swap
  · rw [if_neg hpe] at h
    obtain ⟨pe, pn, pt, pr⟩ := popAndMove_fields st1 st' aid h
    refine ⟨pe, pn, pt, le_of_eq pr.symm, ?_, ?_⟩
    · intro _
      unfold VehicleAgent.stepCore
      simp only [ha1]
      rw [if_neg hpe]
      exact h
    · intro hI
      exact popAndMove_occInv st1 st' aid h hI
  · rw [if_pos hpe] at h
    simp only [draw] at h
    set stmid := setAgent { st1 with rcount := st1.rcount + 1 } aid
      { a1 with dest := st1.nodes.getD (r1 st1.rcount % st1.nodes.length) 0 }
      with hmid
    set st3 := VehicleAgent.calculate_new_path r1 stmid aid with h3
    obtain ⟨m3e, m3n, m3g, m3tr, m3t, m3mp, m3lo, m3hi, _⟩ :=
      calc_new_path_fields r1 stmid aid
    have hmidr : stmid.rcount = st1.rcount + 1 := rfl
    have hmidmp : stmid.agents.map AgentSt.pos = st1.agents.map AgentSt.pos :=
      map_set_same AgentSt.pos st1.agents aid a1 _ ha1 rfl
    have hmidInv : OccInv st1 → OccInv stmid := fun hI =>
      occInv_congr st1 stmid rfl rfl hmidmp hI
    have h3Inv : OccInv st1 → OccInv st3 := fun hI =>
      occInv_congr stmid st3 m3n m3g m3mp (hmidInv hI)
    have h3len : st3.agents.length = st1.agents.length := by
      have h1 := congrArg List.length m3mp
      have h2 := congrArg List.length hmidmp
      simpa using h1.trans h2
    have h3lo : st1.rcount + 1 ≤ st3.rcount := hmidr ▸ m3lo
    -- common transfer: with agreement up to st3.rcount the r2 core reaches st3
    have htrans : ∀ b, st3.rcount ≤ b → Agree r1 r2 st1.rcount b →
        VehicleAgent.calculate_new_path r2 (setAgent
          { st1 with rcount := st1.rcount + 1 } aid
          { a1 with dest :=
            st1.nodes.getD (r2 st1.rcount % st1.nodes.length) 0 }) aid = st3 := by
      intro b hb hA
      have h0 : r1 st1.rcount = r2 st1.rcount :=
        hA st1.rcount (le_refl _) (lt_of_lt_of_le (by omega) hb)
      rw [← h0, ← hmid]
      rw [h3]
      apply calc_agree
      intro i h1 h2
      exact hA i (by rw [hmidr] at h1; omega) (lt_of_lt_of_le (by rw [← h3] at h2; exact h2) hb)
    rcases ha3 : st3.agents[aid]? with _ | a3
    · simp only [ha3] at h
      exact Option.noConfusion h
    simp only [ha3] at h
    by_cases hpe3 : a3.path.isEmpty = true
    · rw [if_pos hpe3] at h
      obtain rfl : st3 = st' := Option.some.inj h
      refine ⟨m3e.trans rfl, m3n.trans rfl, m3t.trans rfl, by omega, ?_, ?_⟩
      · intro hA
        unfold VehicleAgent.stepCore
        simp only [ha1]
        rw [if_pos hpe]
        simp only [draw]
        rw [htrans st3.rcount (le_refl _) hA]
        simp only [ha3]
        rw [if_pos hpe3]
      · intro hI
        exact ⟨h3Inv hI, h3len⟩
    · rw [if_neg hpe3] at h
      obtain ⟨pe, pn, pt, pr⟩ := popAndMove_fields st3 st' aid h
      refine ⟨pe.trans m3e, pn.trans m3n, pt.trans m3t, by omega, ?_, ?_⟩
      · intro hA
        unfold VehicleAgent.stepCore
        simp only [ha1]
        rw [if_pos hpe]
        simp only [draw]
        rw [htrans st'.rcount (le_of_eq pr.symm) hA]
        simp only [ha3]
        rw [if_neg hpe3]
        exact h
      · intro hI
        have := popAndMove_occInv st3 st' aid h (h3Inv hI)
        exact ⟨this.1, this.2.trans h3len⟩

/-- Per-agent step: preserved fields, draw-count monotonicity, transfer
along streams agreeing on the consumed window, and preservation of the
occupancy invariant. -/
theorem step_props (r1 r2 : ℕ → ℕ) (st st' : SimState) (aid : ℕ)
    (h : VehicleAgent.step r1 st aid = some st') :
    st'.edges = st.edges ∧ st'.nodes = st.nodes ∧ st'.t = st.t ∧
    st.rcount ≤ st'.rcount ∧
    (Agree r1 r2 st.rcount st'.rcount → VehicleAgent.step r2 st aid = some st') ∧
    (OccInv st → OccInv st' ∧ st'.agents.length = st.agents.length) := by
  rw [step_eq_core] at h
  by_cases ht : st.t % RECALCULATE_PATH_STEPS = 0
  swap
  · rw [if_neg ht] at h
    obtain ⟨e, n, t, rl, ag, oc⟩ := stepCore_props r1 r2 st st' aid h
    exact ⟨e, n, t, rl,
      fun hA => by rw [step_eq_core, if_neg ht]; exact ag hA, oc⟩
  · rw [if_pos ht] at h
    set st1 := VehicleAgent.calculate_new_path r1 st aid with h1
    obtain ⟨ce, cn, cg, ctr, ct, cmp, clo, chi, _⟩ := calc_new_path_fields r1 st aid
    rw [← h1] at ce cn cg ctr ct cmp clo chi
    obtain ⟨e, n, t, rl, ag, oc⟩ := stepCore_props r1 r2 st1 st' aid h
    have hlen1 : st1.agents.length = st.agents.length := by
      have := congrArg List.length cmp
      simpa using this
    refine ⟨e.trans ce, n.trans cn, t.trans ct, le_trans clo rl, ?_, ?_⟩
    · intro hA
      rw [step_eq_core, if_pos ht]
      have hc : VehicleAgent.calculate_new_path r2 st aid = st1 := by
        rw [h1]
        apply calc_agree
        intro i hi1 hi2
        exact hA i hi1 (lt_of_lt_of_le (h1 ▸ hi2) rl)
      rw [hc]
      exact ag (fun i hi1 hi2 => hA i (le_trans clo hi1) hi2)
    · intro hI
      have hI1 : OccInv st1 := occInv_congr st st1 cn cg cmp hI
      obtain ⟨a, b⟩ := oc hI1
      exact ⟨a, b.trans hlen1⟩

/-- The agent loop of one tick enjoys the same preservation properties as
a single step. -/
theorem stepAgents_props (r1 r2 : ℕ → ℕ) (ids : List ℕ) (st st' : SimState)
    (h : stepAgents r1 ids st = some st') :
    st'.edges = st.edges ∧ st'.nodes = st.nodes ∧ st'.t = st.t ∧
    st.rcount ≤ st'.rcount ∧
    (Agree r1 r2 st.rcount st'.rcount → stepAgents r2 ids st = some st') ∧
    (OccInv st → OccInv st' ∧ st'.agents.length = st.agents.length) := by
  induction ids generalizing st with
  | nil =>
    obtain rfl : st = st' := Option.some.inj h
    exact ⟨rfl, rfl, rfl, le_refl _, fun _ => rfl, fun hI => ⟨hI, rfl⟩⟩
  | cons i ids ih =>
    unfold stepAgents at h
    rcases hs : VehicleAgent.step r1 st i with _ | stm
    · simp only [hs] at h
      exact Option.noConfusion h
    simp only [hs] at h
    obtain ⟨e1, n1, t1, rl1, ag1, oc1⟩ := step_props r1 r2 st stm i hs
    obtain ⟨e2, n2, t2, rl2, ag2, oc2⟩ := ih stm h
    refine ⟨e2.trans e1, n2.trans n1, t2.trans t1, le_trans rl1 rl2, ?_, ?_⟩
    · intro hA
      unfold stepAgents
      rw [ag1 (fun j hj1 hj2 => hA j hj1 (lt_of_lt_of_le hj2 rl2))]
      exact ag2 (fun j hj1 hj2 => hA j (le_trans rl1 hj1) hj2)
    · intro hI
      obtain ⟨a, b⟩ := oc1 hI
      obtain ⟨c, d⟩ := oc2 a
      exact ⟨c, d.trans b⟩

/-- One tick: nodes kept, time advanced, draws monotone, transfer along
agreeing streams, occupancy invariant kept, and — given well-formed static
edge data — the travel-time lower bound re-established by the tick's
closing congestion recompute. -/
theorem tick_props (r1 r2 : ℕ → ℕ) (st st' : SimState)
    (h : tick r1 st = some st') :
    st'.nodes = st.nodes ∧ st'.t = st.t + 1 ∧ st.rcount ≤ st'.rcount ∧
    (Agree r1 r2 st.rcount st'.rcount → tick r2 st = some st') ∧
    (OccInv st → OccInv st' ∧ st'.agents.length = st.agents.length) ∧
    (EdgesStatic st → EdgesStatic st' ∧ TTge st') := by
  unfold tick at h
  rcases hs : stepAgents r1 (List.range st.agents.length)
      { st with t := st.t + 1 } with _ | stm
  · simp only [hs] at h
    exact Option.noConfusion h
  simp only [hs] at h
  obtain ⟨e1, n1, t1, rl1, ag1, oc1⟩ := stepAgents_props r1 r2 _ _ stm hs
  obtain ⟨un, ug, utr, ua, ur, ut, ue, uo⟩ := update_props stm st' h
  refine ⟨un.trans n1, ut.trans t1, by rw [ur]; exact rl1, ?_, ?_, ?_⟩
  · intro hA
    unfold tick
    rw [ag1 (fun j hj1 hj2 => hA j hj1 (by rw [ur]; exact hj2))]
    exact h
  · intro hI
    have hI0 : OccInv { st with t := st.t + 1 } :=
      occInv_congr st _ rfl rfl rfl hI
    obtain ⟨a, b⟩ := oc1 hI0
    refine ⟨uo a, ?_⟩
    rw [ua]
    exact b
  · intro hE
    apply ue
    intro e he
    exact hE e (e1 ▸ he)

/-- Iterated ticks preserve everything the run-level claims need. -/
theorem runTicks_props (r1 r2 : ℕ → ℕ) (n : ℕ) (st st' : SimState)
    (h : runTicks r1 st n = some st') :
    st'.nodes = st.nodes ∧ st.rcount ≤ st'.rcount ∧
    (Agree r1 r2 st.rcount st'.rcount → runTicks r2 st n = some st') ∧
    (OccInv st → OccInv st' ∧ st'.agents.length = st.agents.length) ∧
    (EdgesStatic st ∧ TTge st → EdgesStatic st' ∧ TTge st') := by
  induction n generalizing st with
  | zero =>
    obtain rfl : st = st' := Option.some.inj h
    exact ⟨rfl, le_refl _, fun _ => rfl, fun hI => ⟨hI, rfl⟩, id⟩
  | succ n ih =>
    unfold runTicks at h
    rcases ht : tick r1 st with _ | stm
    · simp only [ht] at h
      exact Option.noConfusion h
    simp only [ht] at h
    obtain ⟨n1, t1, rl1, ag1, oc1, es1⟩ := tick_props r1 r2 st stm ht
    obtain ⟨n2, rl2, ag2, oc2, es2⟩ := ih stm h
    refine ⟨n2.trans n1, le_trans rl1 rl2, ?_, ?_, ?_⟩
    · intro hA
      unfold runTicks
      rw [ag1 (fun j hj1 hj2 => hA j hj1 (lt_of_lt_of_le hj2 rl2))]
      exact ag2 (fun j hj1 hj2 => hA j (le_trans rl1 hj1) hj2)
    · intro hI
      obtain ⟨a, b⟩ := oc1 hI
      obtain ⟨c, d⟩ := oc2 a
      exact ⟨c, d.trans b⟩
    · rintro ⟨hE, _⟩
      obtain ⟨a, b⟩ := es1 hE
      exact es2 ⟨a, b⟩

/-- Unfolding of a successor draw block. -/
theorem drawN_succ (r : ℕ → ℕ) (st : SimState) (k : ℕ) :
    drawN r st (k + 1) =
      ((draw r st).1 :: (drawN r (draw r st).2 k).1,
        (drawN r (draw r st).2 k).2) := rfl

/-- The draw loop: the state is only advanced in its draw counter, exactly
`k` values are produced, each is a graph node (for a nonempty node list),
and the drawn list depends only on the consumed stream window. -/
theorem drawN_props (r1 r2 : ℕ → ℕ) (k : ℕ) (st : SimState) :
    (drawN r1 st k).2 = { st with rcount := st.rcount + k } ∧
    (drawN r1 st k).1.length = k ∧
    (st.nodes ≠ [] → ∀ x ∈ (drawN r1 st k).1, x ∈ st.nodes) ∧
    (Agree r1 r2 st.rcount (st.rcount + k) → drawN r2 st k = drawN r1 st k) := by
  induction k generalizing st with
  | zero =>
    exact ⟨rfl, rfl, fun _ x hx => absurd hx (List.not_mem_nil _), fun _ => rfl⟩
  | succ k ih =>
    obtain ⟨ih1, ih2, ih3, ih4⟩ := ih (draw r1 st).2
    have hst2 : (draw r1 st).2 = { st with rcount := st.rcount + 1 } := rfl
    refine ⟨?_, ?_, ?_, ?_⟩
    · rw [drawN_succ, ih1, hst2]
      have : st.rcount + 1 + k = st.rcount + (k + 1) := by omega
      rw [this]
    · rw [drawN_succ]
      simpa using ih2
    · intro hne x hx
      rw [drawN_succ] at hx
      rcases List.mem_cons.mp hx with rfl | hx2
      · show st.nodes.getD (r1 st.rcount % st.nodes.length) 0 ∈ st.nodes
        have hpos : 0 < st.nodes.length := List.length_pos.mpr hne
        have hlt : r1 st.rcount % st.nodes.length < st.nodes.length :=
          Nat.mod_lt _ hpos
        rw [List.getD_eq_getElem st.nodes 0 hlt]
        exact List.getElem_mem hlt
      · have := ih3 (by rw [hst2]; exact hne) x hx2
        rw [hst2] at this
        exact this
    · intro hA
      have h0 : r2 st.rcount = r1 st.rcount :=
        (hA st.rcount (le_refl _) (by omega)).symm
      have hdraw : draw r2 st = draw r1 st := by
        unfold draw
        rw [h0]
      rw [drawN_succ, drawN_succ, hdraw]
      rw [ih4 ?_]
      intro i hi1 hi2
      rw [hst2] at hi1 hi2
      have hi1' : st.rcount + 1 ≤ i := hi1
      have hi2' : i < st.rcount + 1 + k := hi2
      exact hA i (by omega) (by omega)

/-- Partial canonicity depends only on the node list, the grid, and the
agents' positions. -/
theorem partCanon_congr (k : ℕ) (st st' : SimState) (hn : st'.nodes = st.nodes)
    (hg : st'.grid = st.grid)
    (hmp : st'.agents.map AgentSt.pos = st.agents.map AgentSt.pos)
    (h : PartCanon k st) : PartCanon k st' := by
  obtain ⟨h1, h2, h3⟩ := h
  refine ⟨by rw [hg, hn, h1], ?_, ?_⟩
  · intro pr hpr
    rw [hg] at hpr
    obtain ⟨hh1, hh2⟩ := h2 pr hpr
    exact ⟨hh1, fun i => by rw [hmp]; exact hh2 i⟩
  · intro j q hj hq
    rw [hmp] at hq
    rw [hn]
    exact h3 j q hj hq

/-- Once every agent has been placed, partial canonicity is the occupancy
invariant (given duplicate-free nodes). -/
theorem partCanon_occInv (st : SimState) (hN : st.nodes.Nodup)
    (h : PartCanon st.agents.length st) : OccInv st := by
  obtain ⟨h1, h2, h3⟩ := h
  refine ⟨hN, ⟨h1, ?_⟩, ?_⟩
  · intro pr hpr
    obtain ⟨hh1, hh2⟩ := h2 pr hpr
    refine ⟨hh1, fun i => ?_⟩
    rw [hh2 i]
    constructor
    · exact And.right
    · intro hq
      refine ⟨?_, hq⟩
      have := (List.getElem?_eq_some_iff.mp hq).1
      rw [List.length_map] at this
      exact this
  · intro a ha
    rcases List.getElem_of_mem ha with ⟨j, hj, hja⟩
    refine h3 j a.pos hj ?_
    rw [List.getElem?_eq_getElem (by rw [List.length_map]; exact hj)]
    simp [hja]

/-- Placing one agent: preserved fields, draw-count monotonicity, transfer
along agreeing streams, and the advance of partial canonicity by one
placed index (the placed position must be a graph node). -/
theorem placeOne_props (r1 r2 : ℕ → ℕ) (st : SimState) (i p : ℕ) :
    (placeOne r1 st i p).edges = st.edges ∧
    (placeOne r1 st i p).nodes = st.nodes ∧
    (placeOne r1 st i p).t = st.t ∧
    (placeOne r1 st i p).agents.length = st.agents.length ∧
    st.rcount ≤ (placeOne r1 st i p).rcount ∧
    (Agree r1 r2 st.rcount (placeOne r1 st i p).rcount →
      placeOne r2 st i p = placeOne r1 st i p) ∧
    (PartCanon i st → p ∈ st.nodes → PartCanon (i + 1) (placeOne r1 st i p)) := by
  unfold placeOne
  rcases ha : st.agents[i]? with _ | a
  · simp only [ha]
    refine ⟨by trivial, by trivial, by trivial, by trivial, le_refl _,
      fun _ => by trivial, ?_⟩
    intro hP _
    have hged : st.agents.length ≤ i := List.getElem?_eq_none_iff.mp ha
    obtain ⟨h1, h2, h3⟩ := hP
    refine ⟨h1, ?_, ?_⟩
    · intro pr hpr
      obtain ⟨hn, hm⟩ := h2 pr hpr
      refine ⟨hn, fun j => ?_⟩
      rw [hm j]
      constructor
      · rintro ⟨hj, hq⟩
        exact ⟨by omega, hq⟩
      · rintro ⟨hj, hq⟩
        refine ⟨?_, hq⟩
        have hjlen := (List.getElem?_eq_some_iff.mp hq).1
        rw [List.length_map] at hjlen
        omega
    · intro j q hj hq
      have hjlen := (List.getElem?_eq_some_iff.mp hq).1
      rw [List.length_map] at hjlen
      exact h3 j q (by omega) hq
  · simp only [ha]
    set stm : SimState := { st with
        agents := st.agents.set i { a with pos := p },
        grid := gridAdd st.grid p i,
        tracker := st.tracker ++ [p] } with hstm
    obtain ⟨ce, cn, cg, ctr, ct, cmp, clo, chi, _⟩ := calc_new_path_fields r1 stm i
    have hilt : i < st.agents.length := (List.getElem?_eq_some_iff.mp ha).1
    have hmp : stm.agents.map AgentSt.pos = (st.agents.map AgentSt.pos).set i p := by
      rw [hstm]
      simp [List.map_set]
    have hlen : (VehicleAgent.calculate_new_path r1 stm i).agents.length =
        st.agents.length := by
      have h1 := congrArg List.length cmp
      rw [List.length_map, List.length_map] at h1
      have h2 : stm.agents.length = st.agents.length := by
        rw [hstm]
        simp
      exact h1.trans h2
    refine ⟨ce, cn, ct, hlen, clo, ?_, ?_⟩
    · intro hA
      exact calc_agree r1 r2 stm i hA
    · intro hP hp
      have hmlen : i < (st.agents.map AgentSt.pos).length := by
        rw [List.length_map]
        exact hilt
      have hPm : PartCanon (i + 1) stm := by
        obtain ⟨h1, h2, h3⟩ := hP
        refine ⟨?_, ?_, ?_⟩
        · show (gridAdd st.grid p i).map Prod.fst = st.nodes
          rw [gridAdd_keys]
          exact h1
        · intro pr hpr
          have hpr' : pr ∈ gridAdd st.grid p i := hpr
          unfold gridAdd at hpr'
          rcases List.mem_map.mp hpr' with ⟨pr0, hpr0, heq⟩
          obtain ⟨hnd0, hm0⟩ := h2 pr0 hpr0
          by_cases hcp : pr0.1 = p
          · rw [if_pos hcp] at heq
            subst heq
            refine ⟨nodup_addVal i pr0.2 hnd0, fun j => ?_⟩
            show (j ∈ if i ∈ pr0.2 then pr0.2 else pr0.2 ++ [i]) ↔ _
            rw [mem_addVal, hmp]
            by_cases hji : j = i
            · subst hji
              rw [List.getElem?_set_self (by exact hmlen)]
              constructor
              · intro _
                exact ⟨by omega, by rw [hcp]⟩
              · intro _
                exact Or.inr rfl
            · rw [List.getElem?_set_ne (fun hh => hji hh.symm)]
              constructor
              · rintro (hj | rfl)
                · obtain ⟨hji2, hq⟩ := (hm0 j).mp hj
                  exact ⟨by omega, hq⟩
                · exact absurd rfl hji
              · rintro ⟨hj, hq⟩
                exact Or.inl ((hm0 j).mpr ⟨by omega, hq⟩)
          · rw [if_neg hcp] at heq
            subst heq
            refine ⟨hnd0, fun j => ?_⟩
            rw [hmp]
            by_cases hji : j = i
            · subst hji
              rw [List.getElem?_set_self (by exact hmlen)]
              constructor
              · intro hj
                exact absurd ((hm0 j).mp hj).1 (by omega)
              · rintro ⟨_, hq⟩
                exact absurd (Option.some.inj hq) (fun hh => hcp hh.symm)
            · rw [List.getElem?_set_ne (fun hh => hji hh.symm)]
              rw [hm0 j]
              constructor
              · rintro ⟨hj, hq⟩
                exact ⟨by omega, hq⟩
              · rintro ⟨hj, hq⟩
                exact ⟨by omega, hq⟩
        · intro j q hj hq
          rw [hmp] at hq
          by_cases hji : j = i
          · subst hji
            rw [List.getElem?_set_self (by exact hmlen)] at hq
            obtain rfl : p = q := Option.some.inj hq
            exact hp
          · rw [List.getElem?_set_ne (fun hh => hji hh.symm)] at hq
            exact h3 j q (by omega) hq
      exact partCanon_congr (i + 1) stm _ cn cg cmp hPm

/-- The placement loop: preserved fields, draw-count monotonicity, transfer
along agreeing streams, and establishment of partial canonicity for all
placed indices (every placed position must be a graph node). -/
theorem placeAll_props (r1 r2 : ℕ → ℕ) (ps : List ℕ) (st : SimState) (i : ℕ) :
    (placeAll r1 st ps i).edges = st.edges ∧
    (placeAll r1 st ps i).nodes = st.nodes ∧
    (placeAll r1 st ps i).t = st.t ∧
    (placeAll r1 st ps i).agents.length = st.agents.length ∧
    st.rcount ≤ (placeAll r1 st ps i).rcount ∧
    (Agree r1 r2 st.rcount (placeAll r1 st ps i).rcount →
      placeAll r2 st ps i = placeAll r1 st ps i) ∧
    (PartCanon i st → (∀ p ∈ ps, p ∈ st.nodes) →
      PartCanon (i + ps.length) (placeAll r1 st ps i)) := by
  induction ps generalizing st i with
  | nil =>
    exact ⟨rfl, rfl, rfl, rfl, le_refl _, fun _ => rfl, fun hP _ => hP⟩
  | cons p ps ih =>
    obtain ⟨e1, n1, t1, l1, rl1, ag1, pc1⟩ := placeOne_props r1 r2 st i p
    obtain ⟨e2, n2, t2, l2, rl2, ag2, pc2⟩ := ih (placeOne r1 st i p) (i + 1)
    refine ⟨e2.trans e1, n2.trans n1, t2.trans t1, l2.trans l1,
      le_trans rl1 rl2, ?_, ?_⟩
    · intro hA
      show placeAll r2 (placeOne r2 st i p) ps (i + 1) =
        placeAll r1 (placeOne r1 st i p) ps (i + 1)
      rw [ag1 (fun j hj1 hj2 => hA j hj1 (lt_of_lt_of_le hj2 rl2))]
      exact ag2 (fun j hj1 hj2 => hA j (le_trans rl1 hj1) hj2)
    · intro hP hps
      have hPC1 := pc1 hP (hps p (List.mem_cons_self _ _))
      have hPC2 := pc2 hPC1 (fun q hq => by
        rw [n1]
        exact hps q (List.mem_cons_of_mem _ hq))
      have harith : i + 1 + ps.length = i + (p :: ps).length := by
        rw [List.length_cons]
        omega
      rw [harith] at hPC2
      exact hPC2

/-- The empty grid's keys are exactly the node list. -/
theorem mkGrid_keys (nodes : List ℕ) : (mkGrid nodes).map Prod.fst = nodes := by
  unfold mkGrid
  rw [List.map_map]
  exact List.map_id nodes

/-- Setup: the produced state's static data, agent count, dependence on the
stream only through the consumed prefix, and — for a duplicate-free node
list — the occupancy invariant. -/
theorem setup_props (r1 r2 : ℕ → ℕ) (E : List SimEdge) (nodes : List ℕ)
    (na : ℕ) (st' : SimState) (h : CityModel.setup r1 E nodes na = some st') :
    st'.edges = initEdges E ∧ st'.nodes = nodes ∧ st'.t = 0 ∧
    st'.agents.length = na ∧
    (Agree r1 r2 0 st'.rcount → CityModel.setup r2 E nodes na = some st') ∧
    (nodes.Nodup → OccInv st') := by
  unfold CityModel.setup at h
  by_cases hne : nodes.isEmpty
  · rw [if_pos hne] at h
    exact Option.noConfusion h
  rw [if_neg hne] at h
  have hnodesne : nodes ≠ [] := fun hh => hne (by rw [hh]; rfl)
  set st0 : SimState := ⟨initEdges E, nodes, mkGrid nodes, [], [], 0, 0⟩ with h0
  obtain ⟨hA1, hL1, hM1, hG1⟩ := drawN_props r1 r2 na st0
  rcases hd1 : drawN r1 st0 na with ⟨dests, st1⟩
  simp only [hd1] at h hA1 hL1 hM1 hG1
  set st2 : SimState :=
    { st1 with agents := dests.map (fun d => (⟨0, d, []⟩ : AgentSt)) } with hst2def
  obtain ⟨hA2, hL2, hM2, hG2⟩ := drawN_props r1 r2 na st2
  rcases hd2 : drawN r1 st2 na with ⟨poss, st3⟩
  simp only [hd2] at h hA2 hL2 hM2 hG2
  obtain rfl : placeAll r1 st3 poss 0 = st' := Option.some.inj h
  have hn1 : st1.nodes = nodes := by rw [hA1]
  have hg1 : st1.grid = mkGrid nodes := by rw [hA1]
  have he1 : st1.edges = initEdges E := by rw [hA1]
  have ht1 : st1.t = 0 := by rw [hA1]
  have hr1 : st1.rcount = na := by
    rw [hA1]
    show 0 + na = na
    omega
  have hn3 : st3.nodes = nodes := by rw [hA2]; exact hn1
  have hg3 : st3.grid = mkGrid nodes := by rw [hA2]; exact hg1
  have he3 : st3.edges = initEdges E := by rw [hA2]; exact he1
  have ht3 : st3.t = 0 := by rw [hA2]; exact ht1
  have hag3 : st3.agents = dests.map (fun d => (⟨0, d, []⟩ : AgentSt)) := by
    rw [hA2]
  have hr3 : st3.rcount = na + na := by
    rw [hA2]
    show st1.rcount + na = na + na
    rw [hr1]
  obtain ⟨pe, pn, pt, pl, prc, pag, ppc⟩ := placeAll_props r1 r2 poss st3 0
  have hlenAll : (placeAll r1 st3 poss 0).agents.length = na := by
    rw [pl, hag3, List.length_map]
    exact hL1
  refine ⟨pe.trans he3, pn.trans hn3, pt.trans ht3, hlenAll, ?_, ?_⟩
  · intro hA
    have hub : na + na ≤ (placeAll r1 st3 poss 0).rcount := by
      rw [← hr3]
      exact prc
    have w1 : Agree r1 r2 0 (0 + na) := by
      intro i hi1 hi2
      exact hA i (Nat.zero_le i) (by omega)
    have w2 : Agree r1 r2 st1.rcount (st1.rcount + na) := by
      intro i hi1 hi2
      rw [hr1] at hi1 hi2
      exact hA i (Nat.zero_le i) (by omega)
    have w3 : Agree r1 r2 st3.rcount (placeAll r1 st3 poss 0).rcount := by
      intro i hi1 hi2
      rw [hr3] at hi1
      exact hA i (Nat.zero_le i) hi2
    unfold CityModel.setup
    rw [if_neg hne, ← h0]
    simp only [hG1 w1]
    rw [← hst2def]
    simp only [hG2 w2]
    rw [pag w3]
  · intro hN
    have hpc0 : PartCanon 0 st3 := by
      refine ⟨?_, ?_, ?_⟩
      · rw [hg3, hn3]
        exact mkGrid_keys nodes
      · intro pr hpr
        rw [hg3] at hpr
        unfold mkGrid at hpr
        rcases List.mem_map.mp hpr with ⟨n, hn, rfl⟩
        refine ⟨List.nodup_nil, fun j => ?_⟩
        simp
      · intro j q hj _
        exact absurd hj (by omega)
    have hposs : ∀ p ∈ poss, p ∈ st3.nodes := by
      intro p hp
      rw [hn3]
      have hmm := hM2 (by rw [hn1]; exact hnodesne) p hp
      rw [hn1] at hmm
      exact hmm
    have hpc := ppc hpc0 hposs
    have hidx : (0 : ℕ) + poss.length = (placeAll r1 st3 poss 0).agents.length := by
      rw [Nat.zero_add, hL2, hlenAll]
    rw [hidx] at hpc
    exact partCanon_occInv _ (by rw [pn, hn3]; exact hN) hpc

/-- Setup followed by the initial congestion recompute: static data, agent
count, stream-prefix dependence, occupancy invariant, and — for well-formed
static edge data — the travel-time lower bound. -/
theorem mkInit_props (r1 r2 : ℕ → ℕ) (E : List SimEdge) (nodes : List ℕ)
    (na : ℕ) (st' : SimState) (h : mkInit r1 E nodes na = some st') :
    st'.nodes = nodes ∧ st'.agents.length = na ∧
    (Agree r1 r2 0 st'.rcount → mkInit r2 E nodes na = some st') ∧
    (nodes.Nodup → OccInv st') ∧
    ((∀ e ∈ E, 0 ≤ e.base ∧ 1 ≤ e.lanes) → EdgesStatic st' ∧ TTge st') := by
  unfold mkInit at h
  rcases hsu : CityModel.setup r1 E nodes na with _ | st0
  · simp only [hsu] at h
    exact Option.noConfusion h
  simp only [hsu] at h
  obtain ⟨se, sn, stt, sl, sag, soc⟩ := setup_props r1 r2 E nodes na st0 hsu
  obtain ⟨un, ug, utr, ua, ur, ut, ue, uo⟩ := update_props st0 st' h
  refine ⟨un.trans sn, by rw [ua]; exact sl, ?_, ?_, ?_⟩
  · intro hA
    unfold mkInit
    rw [sag (fun i hi1 hi2 => hA i hi1 (by rw [ur]; exact hi2))]
    exact h
  · intro hN
    exact uo (soc hN)
  · intro hE
    apply ue
    intro e he
    rw [se] at he
    unfold initEdges at he
    rcases List.mem_map.mp he with ⟨e0, he0, rfl⟩
    obtain ⟨hb, hl⟩ := hE e0 he0
    exact ⟨hb, hl⟩

/-- C2: over a network whose edges have nonnegative free-flow times and at
least one lane, every state a run can produce — after setup's initial
congestion recompute and after each tick — satisfies
`current_time ≥ free_flow_time` on every edge; and every congestion
recompute pass on such edges re-establishes the bound. -/
theorem claim2_travel_time_lower_bound (r : ℕ → ℕ) (E : List SimEdge)
    (nodes : List ℕ) (na nt : ℕ) (st' : SimState)
    (hE : ∀ e ∈ E, 0 ≤ e.base ∧ 1 ≤ e.lanes)
    (h : runSim r E nodes na nt = some st') :
    (∀ e ∈ st'.edges, e.base ≤ e.tt) ∧
    ∀ st1 st2 : SimState, (∀ e ∈ st1.edges, 0 ≤ e.base ∧ 1 ≤ e.lanes) →
      CityModel.update st1 = some st2 → ∀ e ∈ st2.edges, e.base ≤ e.tt := by
  constructor
  · unfold runSim at h
    rcases hmi : mkInit r E nodes na with _ | st0
    · simp only [hmi] at h
      exact Option.noConfusion h
    simp only [hmi] at h
    obtain ⟨mn, ml, mag, moc, mes⟩ := mkInit_props r r E nodes na st0 hmi
    obtain ⟨n2, rl2, ag2, oc2, es2⟩ := runTicks_props r r nt st0 st' h
    exact (es2 (mes hE)).2
  · intro st1 st2 hE12 hu
    exact ((update_props st1 st2 hu).2.2.2.2.2.2.1 hE12).2

/-- C2 witness: the run-level bound on a one-edge, one-agent, one-tick run
(the edge starts with a stale travel time of 9, which the initial recompute
resets to its base 3). -/
theorem claim2_witness :
    (∀ e ∈ [(⟨0, 1, 3, 9, 1⟩ : SimEdge)], 0 ≤ e.base ∧ 1 ≤ e.lanes) ∧
    (∀ e ∈ (⟨[⟨0, 1, 3, 3, 1⟩], [0, 1], [(0, [0]), (1, [])], [0],
        [⟨0, 0, []⟩], 3, 1⟩ : SimState).edges, e.base ≤ e.tt) :=
  ⟨by decide,
    (claim2_travel_time_lower_bound (fun _ => 0) [⟨0, 1, 3, 9, 1⟩] [0, 1] 1 1
      ⟨[⟨0, 1, 3, 3, 1⟩], [0, 1], [(0, [0]), (1, [])], [0], [⟨0, 0, []⟩], 3, 1⟩
      (by decide) (by with_unfolding_all rfl)).1⟩

/-- C3: on a duplicate-free node list, every state a run can produce has
each live agent identifier in exactly one node's occupancy set and total
occupancy equal to the live agent count (which is the requested agent
count); and every `move_agent` call from a state satisfying the occupancy
invariant preserves the partition. -/
theorem claim3_occupancy_partition (r : ℕ → ℕ) (E : List SimEdge)
    (nodes : List ℕ) (na nt : ℕ) (st' : SimState)
    (hN : nodes.Nodup)
    (h : runSim r E nodes na nt = some st') :
    (ExactlyOne st' ∧ occSum st' = st'.agents.length ∧
      st'.agents.length = na) ∧
    ∀ (st1 st2 : SimState) (aid newPos : ℕ), OccInv st1 →
      CityModel.move_agent st1 aid newPos = some st2 →
      ExactlyOne st2 ∧ occSum st2 = st2.agents.length ∧
        st2.agents.length = st1.agents.length := by
  constructor
  · unfold runSim at h
    rcases hmi : mkInit r E nodes na with _ | st0
    · simp only [hmi] at h
      exact Option.noConfusion h
    simp only [hmi] at h
    obtain ⟨mn, ml, mag, moc, mes⟩ := mkInit_props r r E nodes na st0 hmi
    obtain ⟨n2, rl2, ag2, oc2, es2⟩ := runTicks_props r r nt st0 st' h
    obtain ⟨hI, hlen⟩ := oc2 (moc hN)
    exact ⟨canon_exactlyOne st' hI, canon_occSum st' hI, hlen.trans ml⟩
  · intro st1 st2 aid newPos hI hmv
    obtain ⟨hI2, hlen⟩ := move_agent_occInv st1 st2 aid newPos hI hmv
    exact ⟨canon_exactlyOne st2 hI2, canon_occSum st2 hI2, hlen⟩

/-- C3 witness: the partition facts on a concrete two-agent, two-node,
one-tick run. -/
theorem claim3_witness :
    ([0, 1] : List ℕ).Nodup ∧
    (ExactlyOne ⟨[], [0, 1], [(0, [0, 1]), (1, [])], [0, 0],
        [⟨0, 0, []⟩, ⟨0, 0, []⟩], 6, 1⟩ ∧
      occSum ⟨[], [0, 1], [(0, [0, 1]), (1, [])], [0, 0],
        [⟨0, 0, []⟩, ⟨0, 0, []⟩], 6, 1⟩ =
        (⟨[], [0, 1], [(0, [0, 1]), (1, [])], [0, 0],
          [⟨0, 0, []⟩, ⟨0, 0, []⟩], 6, 1⟩ : SimState).agents.length ∧
      (⟨[], [0, 1], [(0, [0, 1]), (1, [])], [0, 0],
        [⟨0, 0, []⟩, ⟨0, 0, []⟩], 6, 1⟩ : SimState).agents.length = 2) :=
  ⟨by decide,
    (claim3_occupancy_partition (fun _ => 0) [] [0, 1] 2 1
      ⟨[], [0, 1], [(0, [0, 1]), (1, [])], [0, 0],
        [⟨0, 0, []⟩, ⟨0, 0, []⟩], 6, 1⟩
      (by decide) (by decide)).1⟩

/-- C8: the whole run is a deterministic function of the consumed prefix of
the shared random stream together with the network, agent count, and tick
count: two streams that agree on every index the run consumes produce the
identical run — in particular two runs from the same seed (identical
streams) coincide, and all stochastic choices go through this one
stream. -/
theorem claim8_determinism (r1 r2 : ℕ → ℕ) (E : List SimEdge)
    (nodes : List ℕ) (na nt : ℕ) (st' : SimState)
    (h : runSim r1 E nodes na nt = some st')
    (hA : ∀ i, i < st'.rcount → r1 i = r2 i) :
    runSim r2 E nodes na nt = some st' := by
  unfold runSim at h ⊢
  rcases hmi : mkInit r1 E nodes na with _ | st0
  · simp only [hmi] at h
    exact Option.noConfusion h
  simp only [hmi] at h
  obtain ⟨mn, ml, mag, moc, mes⟩ := mkInit_props r1 r2 E nodes na st0 hmi
  obtain ⟨n2, rl2, ag2, oc2, es2⟩ := runTicks_props r1 r2 nt st0 st' h
  rw [mag (fun i _ hi2 => hA i (by omega))]
  exact ag2 (fun i _ hi2 => hA i hi2)

/-- C8 witness: a concrete one-agent, one-node, one-tick run consumes three
stream values; a second stream agreeing on exactly those three indices (and
differing beyond) reproduces the identical run. -/
theorem claim8_witness :
    runSim (fun _ => 0) [] [0] 1 1 =
      some ⟨[], [0], [(0, [0])], [0], [⟨0, 0, []⟩], 3, 1⟩ ∧
    (∀ i, i < (⟨[], [0], [(0, [0])], [0], [⟨0, 0, []⟩], 3, 1⟩ :
        SimState).rcount →
      (fun _ => (0 : ℕ)) i = (fun j => if j < 3 then 0 else 7) i) ∧
    runSim (fun j => if j < 3 then 0 else 7) [] [0] 1 1 =
      some ⟨[], [0], [(0, [0])], [0], [⟨0, 0, []⟩], 3, 1⟩ :=
  ⟨by decide, by decide,
    claim8_determinism (fun _ => 0) (fun j => if j < 3 then 0 else 7) [] [0] 1 1
      ⟨[], [0], [(0, [0])], [0], [⟨0, 0, []⟩], 3, 1⟩ (by decide) (by decide)⟩

end DTC
